import Mathlib

/-! Weighted graph ADT and breadth-first `findPath`.

A shallow embedding of `src/del2.c` (adjacency-matrix graph, `insertEdge`,
`removeEdge`, `newGraph`, `realPath`, `findPath`).  `src/del.c` carries the
same graph store; its `findPath` has unbalanced braces and is not a
translation unit that compiles, so the search that is embedded is the one of
`del2.c`.  The strict test `< max` of `del.c` line 143 is kept as
`delAdmits` for comparison.

Conventions of the embedding:

* `Vertex` and all weights are C `int`s; they are only compared and copied,
  never added, so `Int` is exact for them.  The edge counter `nE` is a C `int`
  of 32 bits: the record keeps it within `INT_MIN .. INT_MAX`, and `nE++` and
  `nE--` wrap around (`wrapInt`), which is what the increment of a 32-bit
  register does where C leaves the overflow undefined.
* A `Graph` pointer that is not `NULL` is a `GraphRep`.  An operation whose
  `assert` fails yields `none`.  What `malloc` and `calloc` answer to
  `newGraph` is a parameter (`Heap`).
* Where `findPath` leaves defined behaviour (after `dropGraph (g)` on its
  no-path exit) the outcome is `Outcome.released`, not a returned value.
* Arrays are total functions on indices; reads outside `[0, nV)` are undefined
  in C and the theorems below assume valid vertices.
* `while` loops recurse on a fuel argument; running out of fuel is `none`.
-/

namespace Graph

/-- A vertex is a C `int` (`typedef int Vertex`). -/
abbrev Vertex := Int

/-- The value a 32-bit `int` holds after an addition or subtraction whose exact
result is `x`: `x` reduced modulo `2^32` into `INT_MIN .. INT_MAX`. -/
def wrapInt (x : Int) : Int := (x + 2147483648) % 4294967296 - 2147483648

/-- The record `struct GraphRep`: number of vertices, number of edges and the
matrix of weights (`0` means no edge).  The field `nE` is an `int`: it lies
between `INT_MIN` and `INT_MAX`. -/
structure GraphRep where
  nV : Nat
  nE : Int
  edges : Vertex → Vertex → Int
  nE_int : -2147483648 ≤ nE ∧ nE ≤ 2147483647

/-- The test `validV (g, v)` for a graph pointer that is not `NULL`:
`v >= 0 && v < g->nV`. -/
def validV (g : GraphRep) (v : Int) : Prop := 0 ≤ v ∧ v < (g.nV : Int)

instance (g : GraphRep) (v : Int) : Decidable (validV g v) :=
  inferInstanceAs (Decidable (0 ≤ v ∧ v < (g.nV : Int)))

/-- The assignment `m[i][j] = x` on a matrix. -/
def setCell (m : Vertex → Vertex → Int) (i j : Vertex) (x : Int) : Vertex → Vertex → Int :=
  fun a b => if a = i ∧ b = j then x else m a b

/-- The function `insertEdge (g, v, w, wt)`: `none` when the assertion fails;
no change when both `edges[v][w]` and `edges[w][v]` are nonzero; otherwise both
cells are set to `wt` and `nE` is incremented (`g->nE++` on an `int`). -/
def insertEdge (g : GraphRep) (v w : Vertex) (wt : Int) : Option GraphRep :=
  if validV g v ∧ validV g w then
    if g.edges v w ≠ 0 ∧ g.edges w v ≠ 0 then
      some g
    else
      some { g with edges := setCell (setCell g.edges v w wt) w v wt, nE := wrapInt (g.nE + 1),
                    nE_int := by unfold wrapInt; omega }
  else none

/-- The function `removeEdge (g, v, w)`: `none` when the assertion fails; no
change when both `edges[v][w]` and `edges[w][v]` are zero; otherwise both cells
are zeroed and `nE` is decremented (`g->nE--` on an `int`). -/
def removeEdge (g : GraphRep) (v w : Vertex) : Option GraphRep :=
  if validV g v ∧ validV g w then
    if g.edges v w = 0 ∧ g.edges w v = 0 then
      some g
    else
      some { g with edges := setCell (setCell g.edges v w 0) w v 0, nE := wrapInt (g.nE - 1),
                    nE_int := by unfold wrapInt; omega }
  else none

/-- What the allocator answers to the requests of `newGraph`: whether `malloc`
returns the graph record (`del2.c` line 68), whether `calloc` returns the table
of row pointers (line 72), and for each row `v` whether `calloc` returns the row
(line 75).  `false` stands for a `NULL` result. -/
structure Heap where
  record : Bool
  table : Bool
  row : Nat → Bool

/-- The allocator that grants every request. -/
def Heap.plenty : Heap := { record := true, table := true, row := fun _ => true }

/-- The function `newGraph (nV)`: `none` when `assert (nV > 0)` fails or when one
of the assertions on the results of `malloc` and `calloc` fails (lines 69, 73
and 76, the last one once for each row); otherwise a graph of `nV` vertices, no
edge, and a matrix that `calloc` zeroed. -/
def newGraph (heap : Heap) (nV : Int) : Option GraphRep :=
  if 0 < nV then
    if heap.record = true ∧ heap.table = true ∧ ∀ v ∈ List.range nV.toNat, heap.row v = true then
      some { nV := nV.toNat, nE := 0, edges := fun _ _ => 0, nE_int := by decide }
    else none
  else none

/-- A call that mutates the graph store. -/
inductive Op where
  | insert (v w : Vertex) (wt : Int)
  | remove (v w : Vertex)

/-- One mutating call on a graph. -/
def applyOp (g : GraphRep) : Op → Option GraphRep
  | Op.insert v w wt => insertEdge g v w wt
  | Op.remove v w => removeEdge g v w

/-- A sequence of mutating calls, each of which must pass its assertion. -/
def runOps (g : GraphRep) : List Op → Option GraphRep
  | [] => some g
  | op :: ops => (applyOp g op).bind (fun g1 => runOps g1 ops)

/-- The graph obtained from `newGraph (n)`, on the allocator `heap`, by a
sequence of calls to `insertEdge` and `removeEdge` with valid vertices. -/
def build (heap : Heap) (n : Int) (ops : List Op) : Option GraphRep :=
  (newGraph heap n).bind (fun g => runOps g ops)

/-! ## The queue used by the search -/

/-- Modelled from the spec: `Queue.h` and `Queue.c` are not among the sources;
the spec describes the queue as a first-in first-out frontier.  A queue is the
list of its items, oldest first. -/
abbrev Queue := List Vertex

/-- Modelled from the spec: `newQueue ()` is the empty first-in first-out
queue. -/
def newQueue : Queue := []

/-- Modelled from the spec: `QueueJoin (Q, v)` adds `v` at the back of the
first-in first-out queue. -/
def QueueJoin (Q : Queue) (v : Vertex) : Queue := Q ++ [v]

/-- Modelled from the spec: `QueueLeave (Q)` removes the oldest item of the
first-in first-out queue and returns it; there is nothing to return (`none`)
when `QueueIsEmpty (Q)`. -/
def QueueLeave : Queue → Option (Vertex × Queue)
  | [] => none
  | v :: Q => some (v, Q)

/-! ## The search of `del2.c` -/

/-- The vertices `0, 1, ..., nV - 1` in the order of the loop
`for (child = 0; child < g->nV; child++)`. -/
def vertices (g : GraphRep) : List Vertex := (List.range g.nV).map Int.ofNat

/-- The edge test of `del2.c` line 175, negated: the edge from `curr` to `child`
is followed when `edges[curr][child] == 0` and `edges[curr][child] > max` are
both false. -/
def admits (g : GraphRep) (max : Int) (curr child : Vertex) : Prop :=
  ¬ (g.edges curr child = 0 ∨ g.edges curr child > max)

instance (g : GraphRep) (max : Int) (curr child : Vertex) : Decidable (admits g max curr child) :=
  inferInstanceAs (Decidable (¬ (g.edges curr child = 0 ∨ g.edges curr child > max)))

/-- The edge test of `del.c` line 143:
`edges[currVertex][j] != 0 && edges[currVertex][j] < max`. -/
def delAdmits (g : GraphRep) (max : Int) (curr child : Vertex) : Prop :=
  g.edges curr child ≠ 0 ∧ g.edges curr child < max

instance (g : GraphRep) (max : Int) (curr child : Vertex) : Decidable (delAdmits g max curr child) :=
  inferInstanceAs (Decidable (g.edges curr child ≠ 0 ∧ g.edges curr child < max))

/-- The assignment `visited[child] = curr`. -/
def setParent (visited : Vertex → Int) (child : Vertex) (curr : Int) : Vertex → Int :=
  fun v => if v = child then curr else visited v

/-- The loop over the children of `curr` (`del2.c` lines 172-185): a child is
skipped when there is no edge, when the weight is greater than `max`, or when
`visited[child] != -1`; otherwise it joins the queue and `visited[child]` is
set to `curr`. -/
def scanChildren (g : GraphRep) (max : Int) (curr : Vertex) :
    List Vertex → Queue → (Vertex → Int) → Queue × (Vertex → Int)
  | [], Q, visited => (Q, visited)
  | child :: rest, Q, visited =>
    if g.edges curr child = 0 ∨ g.edges curr child > max ∨ visited child ≠ -1 then
      scanChildren g max curr rest Q visited
    else
      scanChildren g max curr rest (QueueJoin Q child) (setParent visited child curr)

/-- How the loop `while (!QueueIsEmpty(Q))` of `findPath` ends. -/
inductive BfsOutcome where
  | found (visited : Vertex → Int)
  | exhausted (visited : Vertex → Int)

/-- The loop `while (!QueueIsEmpty(Q))` of `findPath` (`del2.c` lines 159-186):
the oldest vertex leaves the queue; when it is `dest` the loop is left towards
`realPath`, otherwise its children are scanned.  `none` is out of fuel. -/
def bfsLoop (g : GraphRep) (dest : Vertex) (max : Int) :
    Nat → Queue → (Vertex → Int) → Option BfsOutcome
  | 0, _, _ => none
  | fuel + 1, Q, visited =>
    match QueueLeave Q with
    | none => some (BfsOutcome.exhausted visited)
    | some (curr, Q1) =>
      if curr = dest then some (BfsOutcome.found visited)
      else
        bfsLoop g dest max fuel (scanChildren g max curr (vertices g) Q1 visited).1
          (scanChildren g max curr (vertices g) Q1 visited).2

/-- The loop `while (current != src)` of `realPath` (`del2.c` lines 116-122):
`current` joins the route, then `current = visited[current]` and `hops++`.
`none` is out of fuel. -/
def backtrack (src : Vertex) (visited : Vertex → Int) :
    Nat → Vertex → Queue → Int → Option (Queue × Int)
  | 0, _, _, _ => none
  | fuel + 1, current, route, hops =>
    if current ≠ src then
      backtrack src visited fuel (visited current) (QueueJoin route current) (hops + 1)
    else some (route, hops)

/-- The loop `for (i = hops - 1; i >= 0; i--) path[i] = QueueLeave(route)` of
`realPath` (`del2.c` lines 128-130), started with `i + 1` iterations to go.
The result is the list of the stores `path[i] = v` it performs, in program
order; `none` when the route has no item left to give. -/
def fillPath : Nat → Queue → Option (List (Int × Vertex))
  | 0, _ => some []
  | i + 1, route =>
    match QueueLeave route with
    | none => none
    | some (v, route1) => (fillPath i route1).map (fun ws => ((i : Int), v) :: ws)

/-- The function `realPath (src, dest, visited, nV, path)` (`del2.c` lines
111-134): the hop count it returns and the stores into `path` it performs. -/
def realPath (fuel : Nat) (src dest : Vertex) (visited : Vertex → Int) (_nV : Nat) :
    Option (Int × List (Int × Vertex)) :=
  match backtrack src visited fuel dest newQueue 0 with
  | none => none
  | some (route, hops) =>
    (fillPath (hops + 1).toNat (QueueJoin route src)).map (fun ws => (hops + 1, ws))

/-- What a call of `findPath` that returns leaves behind: the value it
returns, the stores `path[i] = v` it performed in program order, and the graph
store afterwards (`some g`: the graph is still allocated). -/
structure FindResult where
  hops : Int
  writes : List (Int × Vertex)
  graph : Option GraphRep

/-- How a call of `findPath` ends.  `returned r`: a `return` statement was
reached within defined behaviour, with the result `r`.  `released`: the queue
ran empty and line 187 of `del2.c` called `dropGraph (g)`, which frees the
graph; lines 189-190 then read `g->nV` from the freed record and pass the
`int`s `visited[i]` to `free`, which has no defined behaviour in C (the run is
killed, or goes on to the `return 0` of line 193), so no result is given. -/
inductive Outcome where
  | returned (r : FindResult)
  | released

/-- The result of a call that returned within defined behaviour. -/
def Outcome.result : Outcome → Option FindResult
  | Outcome.returned r => some r
  | Outcome.released => none

/-- The function `findPath (g, src, dest, max, path)` of `del2.c` (lines
138-194) for a graph pointer that is not `NULL`.  When `src == dest` it stores
`path[0] = src` and returns 1.  Otherwise the queue starts as `[src]`, every
`visited` entry as `-1`; when `dest` leaves the queue the result is that of
`realPath`; when the queue runs empty the code calls `dropGraph (g)` and
leaves defined behaviour (`Outcome.released`).  `none` is out of fuel. -/
def findPath (fuel : Nat) (g : GraphRep) (src dest : Vertex) (max : Int) : Option Outcome :=
  if src = dest then
    some (Outcome.returned { hops := 1, writes := [(0, src)], graph := some g })
  else
    match bfsLoop g dest max fuel (QueueJoin newQueue src) (fun _ => -1) with
    | none => none
    | some (BfsOutcome.found visited) =>
      (realPath fuel src dest visited g.nV).map
        (fun r => Outcome.returned { hops := r.1, writes := r.2, graph := some g })
    | some (BfsOutcome.exhausted _) => some Outcome.released

/-- The buffer `path` after the stores `ws` (in program order) on the buffer
`p`. -/
def store (p : Int → Vertex) : List (Int × Vertex) → Int → Vertex
  | [] => p
  | (i, v) :: ws => store (fun k => if k = i then v else p k) ws

/-- The path `findPath` leaves in a buffer that held `p`: the entries
`path[0], ..., path[hops - 1]`. -/
def FindResult.path (r : FindResult) (p : Int → Vertex) : List Vertex :=
  (List.range r.hops.toNat).map (fun (i : Nat) => store p r.writes (i : Int))

/-- Consecutive entries of the list are related by `ok`. -/
def Linked (ok : Vertex → Vertex → Prop) : List Vertex → Prop
  | [] => True
  | [_] => True
  | a :: b :: rest => ok a b ∧ Linked ok (b :: rest)

instance Linked.decidable (ok : Vertex → Vertex → Prop) [DecidableRel ok] :
    (p : List Vertex) → Decidable (Linked ok p)
  | [] => isTrue trivial
  | [_] => isTrue trivial
  | a :: b :: rest =>
    match (inferInstance : Decidable (ok a b)), Linked.decidable ok (b :: rest) with
    | isTrue h1, isTrue h2 => isTrue ⟨h1, h2⟩
    | isFalse h1, _ => isFalse (fun h => h1 h.1)
    | _, isFalse h2 => isFalse (fun h => h2 h.2)

/-- The list `p` is a walk of the graph from `src` to `dest` along edges that
satisfy `ok`: it is not empty, starts at `src`, ends at `dest`, every entry is
a valid vertex and consecutive entries are joined by an edge that `ok`
accepts. -/
def IsWalk (g : GraphRep) (ok : Vertex → Vertex → Prop) (src dest : Vertex) (p : List Vertex) : Prop :=
  p.head? = some src ∧ p.getLast? = some dest ∧ (∀ v ∈ p, validV g v) ∧ Linked ok p

instance (g : GraphRep) (ok : Vertex → Vertex → Prop) [DecidableRel ok] (src dest : Vertex)
    (p : List Vertex) : Decidable (IsWalk g ok src dest p) :=
  inferInstanceAs (Decidable (p.head? = some src ∧ p.getLast? = some dest ∧
    (∀ v ∈ p, validV g v) ∧ Linked ok p))

/-- The graph of the scenario in the spec: vertices `0..3` and the edges
`(0,1,5)`, `(1,2,5)`, `(0,2,20)`, `(2,3,5)`. -/
def scenario : Option GraphRep :=
  build Heap.plenty 4 [Op.insert 0 1 5, Op.insert 1 2 5, Op.insert 0 2 20, Op.insert 2 3 5]

/-- Two vertices and no edge: the result of `newGraph (2)`. -/
def twoVertices : GraphRep :=
  { nV := 2, nE := 0, edges := fun _ _ => 0, nE_int := by decide }

/-- Two vertices joined by an edge of weight 5: `newGraph (2)` followed by
`insertEdge (g, 0, 1, 5)`. -/
def oneEdge : GraphRep :=
  { nV := 2, nE := 1, edges := setCell (setCell (fun _ _ => 0) 0 1 5) 1 0 5,
    nE_int := by decide }

/-- The graph of the scenario in the spec as a record: four vertices and the
edges `(0,1,5)`, `(1,2,5)`, `(0,2,20)`, `(2,3,5)` inserted in this order. -/
def scenarioGraph : GraphRep :=
  { nV := 4, nE := 4,
    edges := setCell (setCell (setCell (setCell (setCell (setCell (setCell (setCell
      (fun _ _ => 0) 0 1 5) 1 0 5) 1 2 5) 2 1 5) 0 2 20) 2 0 20) 2 3 5) 3 2 5,
    nE_int := by decide }

/-- Two vertices, no edge, and the edge count at `INT_MAX`: the state that
2147483647 calls of `insertEdge (g, 0, 1, 0)` on `newGraph (2)` leave. -/
def fullCount : GraphRep :=
  { nV := 2, nE := 2147483647, edges := fun _ _ => 0, nE_int := by decide }

/-- An allocator that grants the record, the table of rows and the first row,
and has no memory left for a second row. -/
def Heap.oneRow : Heap := { record := true, table := true, row := fun v => decide (v < 1) }

/-- The pairs `(a, b)` with `a` in `[0, 32768)` and `b` in `[32768, 98304)`:
`2^31` different pairs of vertices of a graph with 98304 vertices. -/
def manyPairs : List (Vertex × Vertex) :=
  ((List.range 32768).map Int.ofNat).product
    ((List.range 65536).map (fun (i : Nat) => Int.ofNat (i + 32768)))

/-- One call `insertEdge (g, a, b, 1)` for each pair of `manyPairs`. -/
def manyEdges : List Op := manyPairs.map (fun p => Op.insert p.1 p.2 1)

/-! ## Notions used to state what the search does -/

/-- The stores of `fillPath` on a route: the item at the front goes to the
highest index, the item at the back to index 0. -/
def descStores : List Vertex → List (Int × Vertex)
  | [] => []
  | v :: l => ((l.length : Int), v) :: descStores l

/-- The number of vertices whose `visited` entry is still `-1`. -/
def unmarked (g : GraphRep) (visited : Vertex → Int) : Nat :=
  ((vertices g).filter (fun v => visited v = -1)).length

/-- The number of vertices other than `src` whose `visited` entry is set. -/
def marked (g : GraphRep) (src : Vertex) (visited : Vertex → Int) : Nat :=
  ((vertices g).filter (fun v => v ≠ src ∧ visited v ≠ -1)).length

/-- `ChainTo src visited v k`: following `visited` from `v` reaches `src` after
`k` steps, through entries that are set. -/
inductive ChainTo (src : Vertex) (visited : Vertex → Int) : Vertex → Nat → Prop where
  | base : ChainTo src visited src 0
  | step {v : Vertex} {k : Nat} : v ≠ src → visited v ≠ -1 →
      ChainTo src visited (visited v) k → ChainTo src visited v (k + 1)

/-- The invariant of the search.  `P` lists the vertices whose children have
been scanned, `W` the vertices that wait (the queue, with the vertex being
scanned in front of it). -/
structure BfsInv (g : GraphRep) (src dest : Vertex) (max : Int)
    (P W : List Vertex) (visited : Vertex → Int) : Prop where
  waiting : ∀ v ∈ W, validV g v ∧ (v = src ∨ visited v ≠ -1)
  source : src ∈ P ∨ src ∈ W
  seen : ∀ v, visited v ≠ -1 → validV g v ∧ (v ∈ P ∨ v ∈ W)
  closed : ∀ u ∈ P, ∀ c, validV g c → admits g max u c → visited c ≠ -1
  dest_open : dest ∉ P
  chain : ∀ v, v ≠ src → visited v ≠ -1 →
    ∃ k, ChainTo src visited v k ∧ k ≤ marked g src visited

/-! ## Notions used for the edge count and the weights -/

/-- The pairs `(v, w)` of vertices with `v <= w`: one for each unordered pair
of vertices, a vertex paired with itself included. -/
def pairs (g : GraphRep) : List (Vertex × Vertex) :=
  ((vertices g).product (vertices g)).filter (fun p => p.1 ≤ p.2)

/-- The number of unordered pairs of vertices whose matrix entry is nonzero. -/
def edgeCount (g : GraphRep) : Nat :=
  ((pairs g).filter (fun p => g.edges p.1 p.2 ≠ 0)).length

/-- The unordered pair of `v` and `w` as it appears in `pairs`. -/
def normPair (v w : Vertex) : Vertex × Vertex := if v ≤ w then (v, w) else (w, v)

/-- The weight passed to `insertEdge` is not zero (nothing is asked of a
`removeEdge` call). -/
def Op.nonzero : Op → Prop
  | Op.insert _ _ wt => wt ≠ 0
  | Op.remove _ _ => True

instance (op : Op) : Decidable (Op.nonzero op) :=
  match op with
  | Op.insert _ _ wt => inferInstanceAs (Decidable (wt ≠ 0))
  | Op.remove _ _ => isTrue trivial

/-- The weight passed to `insertEdge` is not negative (nothing is asked of a
`removeEdge` call). -/
def Op.nonneg : Op → Prop
  | Op.insert _ _ wt => 0 ≤ wt
  | Op.remove _ _ => True

instance (op : Op) : Decidable (Op.nonneg op) :=
  match op with
  | Op.insert _ _ wt => inferInstanceAs (Decidable (0 ≤ wt))
  | Op.remove _ _ => isTrue trivial

/-- The vertices met on the first `k` steps along `visited` from `v`, `v`
first: the route the loop of `realPath` collects. -/
def chainFrom (visited : Vertex → Int) : Nat → Vertex → List Vertex
  | 0, _ => []
  | k + 1, v => v :: chainFrom visited k (visited v)

/-- Four vertices and the edges `(0,1,5)`, `(1,3,1)`, `(0,2,1)`, `(2,3,1)`
inserted in this order: two routes of three vertices from 0 to 3. -/
def diamond : GraphRep :=
  { nV := 4, nE := 4,
    edges := setCell (setCell (setCell (setCell (setCell (setCell (setCell (setCell
      (fun _ _ => 0) 0 1 5) 1 0 5) 1 3 1) 3 1 1) 0 2 1) 2 0 1) 2 3 1) 3 2 1,
    nE_int := by decide }

/-! ## The log of the calls `QueueJoin (Q, v)` of one search -/

/-- The children that join the queue during the loop over the children of
`curr` (`del2.c` lines 172-185), in the order of the calls on line 180. -/
def scanJoins (g : GraphRep) (max : Int) (curr : Vertex) :
    List Vertex → (Vertex → Int) → List Vertex
  | [], _ => []
  | child :: rest, visited =>
    if g.edges curr child = 0 ∨ g.edges curr child > max ∨ visited child ≠ -1 then
      scanJoins g max curr rest visited
    else
      child :: scanJoins g max curr rest (setParent visited child curr)

/-- The vertices that join the queue while the loop `while (!QueueIsEmpty(Q))`
of `findPath` runs, in the order of the calls. -/
def bfsJoins (g : GraphRep) (dest : Vertex) (max : Int) :
    Nat → Queue → (Vertex → Int) → List Vertex
  | 0, _, _ => []
  | fuel + 1, Q, visited =>
    match QueueLeave Q with
    | none => []
    | some (curr, Q1) =>
      if curr = dest then []
      else
        scanJoins g max curr (vertices g) visited ++
          bfsJoins g dest max fuel (scanChildren g max curr (vertices g) Q1 visited).1
            (scanChildren g max curr (vertices g) Q1 visited).2

/-- All calls `QueueJoin (Q, v)` of one call of `findPath`, in order: the one
of line 149 for `src`, then those of the loop. -/
def findPathJoins (fuel : Nat) (g : GraphRep) (src dest : Vertex) (max : Int) : List Vertex :=
  if src = dest then []
  else src :: bfsJoins g dest max fuel (QueueJoin newQueue src) (fun _ => -1)

/-! ## The graph store -/

theorem twoVertices_built : build Heap.plenty 2 [] = some twoVertices := rfl

theorem oneEdge_built : build Heap.plenty 2 [Op.insert 0 1 5] = some oneEdge := rfl

theorem scenarioGraph_built : scenario = some scenarioGraph := rfl

theorem wrapInt_of_int (x : Int) (h1 : -2147483648 ≤ x) (h2 : x ≤ 2147483647) :
    wrapInt x = x := by
  unfold wrapInt
  omega

theorem wrapInt_add (x y : Int) : wrapInt (wrapInt x + y) = wrapInt (x + y) := by
  unfold wrapInt
  omega

/-- Two graph records with the same fields are the same record. -/
theorem GraphRep_eq (g1 g2 : GraphRep) (h1 : g1.nV = g2.nV) (h2 : g1.nE = g2.nE)
    (h3 : g1.edges = g2.edges) : g1 = g2 := by
  cases g1
  cases g2
  simp only at h1 h2 h3
  subst h1
  subst h2
  subst h3
  rfl

theorem setCell_pair_symm (m : Vertex → Vertex → Int) (v w : Vertex) (x : Int)
    (hm : ∀ a b, m a b = m b a) (a b : Vertex) :
    setCell (setCell m v w x) w v x a b = setCell (setCell m v w x) w v x b a := by
  have e1 : (b = w ∧ a = v) = (a = v ∧ b = w) := propext and_comm
  have e2 : (b = v ∧ a = w) = (a = w ∧ b = v) := propext and_comm
  simp only [setCell, e1, e2, hm b a]
  split_ifs <;> rfl

theorem setCell_pair_left (m : Vertex → Vertex → Int) (v w : Vertex) (x : Int) :
    setCell (setCell m v w x) w v x v w = x := by
  simp only [setCell]
  by_cases h : v = w <;> simp [h]

theorem setCell_pair_right (m : Vertex → Vertex → Int) (v w : Vertex) (x : Int) :
    setCell (setCell m v w x) w v x w v = x := by
  simp only [setCell]
  simp

/-- The branch of `insertEdge` that stores: the assertion holds and the cells
are not both nonzero. -/
theorem insertEdge_stores (g : GraphRep) (v w : Vertex) (wt : Int)
    (hv : validV g v) (hw : validV g w) (hno : ¬ (g.edges v w ≠ 0 ∧ g.edges w v ≠ 0)) :
    ∃ g1, insertEdge g v w wt = some g1 ∧ g1.nV = g.nV ∧ g1.nE = wrapInt (g.nE + 1) ∧
      g1.edges = setCell (setCell g.edges v w wt) w v wt := by
  simp only [insertEdge, hv, hw, and_self, if_true, if_neg hno]
  exact ⟨_, rfl, rfl, rfl, rfl⟩

/-- The branch of `removeEdge` that stores: the assertion holds and the cells
are not both zero. -/
theorem removeEdge_stores (g : GraphRep) (v w : Vertex)
    (hv : validV g v) (hw : validV g w) (hno : ¬ (g.edges v w = 0 ∧ g.edges w v = 0)) :
    ∃ g1, removeEdge g v w = some g1 ∧ g1.nV = g.nV ∧ g1.nE = wrapInt (g.nE - 1) ∧
      g1.edges = setCell (setCell g.edges v w 0) w v 0 := by
  simp only [removeEdge, hv, hw, and_self, if_true, if_neg hno]
  exact ⟨_, rfl, rfl, rfl, rfl⟩

theorem insertEdge_symm (g g1 : GraphRep) (v w : Vertex) (wt : Int)
    (hg : ∀ a b, g.edges a b = g.edges b a) (h : insertEdge g v w wt = some g1) :
    ∀ a b, g1.edges a b = g1.edges b a := by
  unfold insertEdge at h
  split_ifs at h
  · cases h; exact hg
  · cases h; exact setCell_pair_symm g.edges v w wt hg

theorem removeEdge_symm (g g1 : GraphRep) (v w : Vertex)
    (hg : ∀ a b, g.edges a b = g.edges b a) (h : removeEdge g v w = some g1) :
    ∀ a b, g1.edges a b = g1.edges b a := by
  unfold removeEdge at h
  split_ifs at h
  · cases h; exact hg
  · cases h; exact setCell_pair_symm g.edges v w 0 hg

theorem runOps_symm (ops : List Op) : ∀ (g g1 : GraphRep),
    (∀ a b, g.edges a b = g.edges b a) → runOps g ops = some g1 →
    ∀ a b, g1.edges a b = g1.edges b a := by
  induction ops with
  | nil => intro g g1 hg h; cases h; exact hg
  | cons op ops ih =>
    intro g g1 hg h
    simp only [runOps] at h
    cases hop : applyOp g op with
    | none => simp [hop] at h
    | some g2 =>
      rw [hop] at h
      refine ih g2 g1 ?_ h
      cases op with
      | insert v w wt => exact insertEdge_symm g g2 v w wt hg hop
      | remove v w => exact removeEdge_symm g g2 v w hg hop

/-- What `newGraph` returns when it returns: `nV` vertices, edge count 0 and a
matrix of zeros. -/
theorem newGraph_some (heap : Heap) (n : Int) (g : GraphRep) (h : newGraph heap n = some g) :
    0 < n ∧ (g.nV : Int) = n ∧ g.nE = 0 ∧ g.edges = fun _ _ => 0 := by
  unfold newGraph at h
  split_ifs at h with hn
  cases h
  exact ⟨hn, Int.toNat_of_nonneg (le_of_lt hn), rfl, rfl⟩

/-- C10: in every graph obtained from `newGraph (n)` by a sequence of
`insertEdge` and `removeEdge` calls that pass their assertions, the matrix is
symmetric: `edges[v][w] = edges[w][v]` for all `v` and `w`. -/
theorem build_symmetric (heap : Heap) (n : Int) (ops : List Op) (g : GraphRep)
    (h : build heap n ops = some g) : ∀ v w : Vertex, g.edges v w = g.edges w v := by
  unfold build at h
  cases h0 : newGraph heap n with
  | none => simp [h0] at h
  | some g0 =>
    rw [h0, Option.some_bind] at h
    have he := (newGraph_some heap n g0 h0).2.2.2
    exact runOps_symm ops g0 g (fun a b => by rw [he]) h

theorem build_symmetric_witness :
    build Heap.plenty 4 [Op.insert 0 1 5, Op.insert 1 2 5, Op.insert 0 2 20, Op.insert 2 3 5] =
        some scenarioGraph ∧
      ∀ v w : Vertex, scenarioGraph.edges v w = scenarioGraph.edges w v :=
  ⟨rfl, build_symmetric Heap.plenty 4
    [Op.insert 0 1 5, Op.insert 1 2 5, Op.insert 0 2 20, Op.insert 2 3 5] scenarioGraph rfl⟩

/-- C9: for valid vertices `v`, `w` with no edge between them (both cells are
zero), `removeEdge (g, v, w)` returns with the graph exactly as it was: the same
vertex count, edge count and matrix. -/
theorem removeEdge_absent (g : GraphRep) (v w : Vertex) (hv : validV g v) (hw : validV g w)
    (h1 : g.edges v w = 0) (h2 : g.edges w v = 0) : removeEdge g v w = some g := by
  simp [removeEdge, hv, hw, h1, h2]

theorem removeEdge_absent_witness :
    validV twoVertices 0 ∧ validV twoVertices 1 ∧ twoVertices.edges 0 1 = 0 ∧
      twoVertices.edges 1 0 = 0 ∧ removeEdge twoVertices 0 1 = some twoVertices :=
  ⟨by decide, by decide, rfl, rfl,
    removeEdge_absent twoVertices 0 1 (by decide) (by decide) rfl rfl⟩

/-! ## The edge counter at `INT_MAX` -/

/-- Storing zeros into two cells that hold zero changes nothing. -/
theorem setCell_zero (m : Vertex → Vertex → Int) (v w : Vertex) (h1 : m v w = 0)
    (h2 : m w v = 0) : setCell (setCell m v w 0) w v 0 = m := by
  funext a b
  simp only [setCell]
  by_cases e1 : a = w ∧ b = v
  · rw [if_pos e1, e1.1, e1.2, h2]
  · rw [if_neg e1]
    by_cases e2 : a = v ∧ b = w
    · rw [if_pos e2, e2.1, e2.2, h1]
    · rw [if_neg e2]

/-- Calls of `insertEdge (g, 0, 1, 0)` on a graph without the edge only count:
`k` of them add `k` to the edge count, as long as it stays within `INT_MAX`. -/
theorem runOps_zero_weight : ∀ (k : Nat) (g : GraphRep), validV g 0 → validV g 1 →
    g.edges 0 1 = 0 → g.edges 1 0 = 0 → g.nE + (k : Int) ≤ 2147483647 →
    ∃ g1, runOps g (List.replicate k (Op.insert 0 1 0)) = some g1 ∧ g1.nV = g.nV ∧
      g1.edges = g.edges ∧ g1.nE = g.nE + (k : Int) := by
  intro k
  induction k with
  | zero =>
    intro g _ _ _ _ _
    exact ⟨g, rfl, rfl, rfl, by simp⟩
  | succ k ih =>
    intro g hv hw h1 h2 hle
    have hno : ¬ (g.edges 0 1 ≠ 0 ∧ g.edges 1 0 ≠ 0) := fun h => h.1 h1
    obtain ⟨g1, hins, hnV, hnE, hed⟩ := insertEdge_stores g 0 1 0 hv hw hno
    rw [setCell_zero g.edges 0 1 h1 h2] at hed
    have hlo := g.nE_int.1
    have hnE1 : g1.nE = g.nE + 1 := by
      rw [hnE]
      apply wrapInt_of_int
      · omega
      · push_cast at hle
        omega
    have hv1 : validV g1 0 := by unfold validV at hv ⊢; rw [hnV]; exact hv
    have hw1 : validV g1 1 := by unfold validV at hw ⊢; rw [hnV]; exact hw
    obtain ⟨g2, hrun, hnV2, hed2, hnE2⟩ := ih g1 hv1 hw1 (by rw [hed]; exact h1)
      (by rw [hed]; exact h2) (by rw [hnE1]; push_cast at hle; omega)
    refine ⟨g2, ?_, by rw [hnV2, hnV], by rw [hed2, hed], ?_⟩
    · simp only [List.replicate_succ, runOps, applyOp, hins, Option.some_bind]
      exact hrun
    · rw [hnE2, hnE1]
      push_cast
      omega

/-- The state with the edge count at `INT_MAX` is reached through the
interface: `newGraph (2)` followed by 2147483647 calls `insertEdge (g, 0, 1, 0)`. -/
theorem fullCount_built :
    build Heap.plenty 2 (List.replicate 2147483647 (Op.insert 0 1 0)) = some fullCount := by
  have h0 : newGraph Heap.plenty 2 = some twoVertices := rfl
  obtain ⟨g1, hrun, hnV, hed, hnE⟩ := runOps_zero_weight 2147483647 twoVertices
    (by decide) (by decide) rfl rfl (by decide)
  have hg : g1 = fullCount := by
    apply GraphRep_eq
    · rw [hnV]; rfl
    · rw [hnE]; rfl
    · rw [hed]; rfl
  unfold build
  rw [h0, Option.some_bind, hrun, hg]

/-- C8, as stated, fails on the code at three inputs.  On the empty graph of
two vertices, `insertEdge (g, 0, 1, 0)` then `insertEdge (g, 0, 1, 7)` leaves the
weight 7 (not the first weight 0) and the edge count 2 (not 1).  On the graph
that already holds the edge `(0,1)` with weight 5, `insertEdge (g, 0, 1, 3)` then
`insertEdge (g, 0, 1, 9)` leaves the weight 5 (not 3) and the edge count at 1
(not 2).  On the graph whose edge count is `INT_MAX` (reached by 2147483647
calls `insertEdge (g, 0, 1, 0)`), `insertEdge (g, 0, 1, 5)` then
`insertEdge (g, 0, 1, 9)` leaves the weight 5 and the edge count at `INT_MIN`,
not at one more than before. -/
theorem insertEdge_twice_fails :
    ((insertEdge twoVertices 0 1 0).bind (fun g1 => insertEdge g1 0 1 7)).map
        (fun g2 => (g2.edges 0 1, g2.nE - twoVertices.nE)) = some (7, 2) ∧
    ((insertEdge oneEdge 0 1 3).bind (fun g1 => insertEdge g1 0 1 9)).map
        (fun g2 => (g2.edges 0 1, g2.nE - oneEdge.nE)) = some (5, 0) ∧
    build Heap.plenty 2 (List.replicate 2147483647 (Op.insert 0 1 0)) = some fullCount ∧
    fullCount.nE = 2147483647 ∧
    ((insertEdge fullCount 0 1 5).bind (fun g1 => insertEdge g1 0 1 9)).map
        (fun g2 => (g2.edges 0 1, g2.nE)) = some (5, -2147483648) :=
  ⟨by decide, by decide, fullCount_built, rfl, by decide⟩

/-- C8 (amended): for a graph whose edge count is below `INT_MAX`, valid
vertices `v`, `w` that are not yet joined by an edge (not both cells nonzero)
and a weight `k` other than zero, the calls `insertEdge (g, v, w, k)` then
`insertEdge (g, v, w, k2)` both return, the second one changes nothing, the
stored weight is `k` in both directions and the edge count is one more than
before the first call. -/
theorem insertEdge_twice (g : GraphRep) (v w : Vertex) (k k2 : Int)
    (hv : validV g v) (hw : validV g w)
    (hno : ¬ (g.edges v w ≠ 0 ∧ g.edges w v ≠ 0)) (hk : k ≠ 0) (hhi : g.nE < 2147483647) :
    ∃ g1, insertEdge g v w k = some g1 ∧ insertEdge g1 v w k2 = some g1 ∧
      g1.edges v w = k ∧ g1.edges w v = k ∧ g1.nE = g.nE + 1 := by
  obtain ⟨g1, hins, hnV, hnE, hed⟩ := insertEdge_stores g v w k hv hw hno
  have hl : g1.edges v w = k := by rw [hed]; exact setCell_pair_left g.edges v w k
  have hr : g1.edges w v = k := by rw [hed]; exact setCell_pair_right g.edges v w k
  have hv1 : validV g1 v := by unfold validV at hv ⊢; rw [hnV]; exact hv
  have hw1 : validV g1 w := by unfold validV at hw ⊢; rw [hnV]; exact hw
  refine ⟨g1, hins, ?_, hl, hr, ?_⟩
  · have hboth : g1.edges v w ≠ 0 ∧ g1.edges w v ≠ 0 := ⟨by rw [hl]; exact hk, by rw [hr]; exact hk⟩
    simp only [insertEdge, hv1, hw1, and_self, if_true, if_pos hboth]
  · rw [hnE]
    have hlo := g.nE_int.1
    exact wrapInt_of_int _ (by omega) (by omega)

theorem insertEdge_twice_witness :
    validV twoVertices 0 ∧ validV twoVertices 1 ∧
      ¬ (twoVertices.edges 0 1 ≠ 0 ∧ twoVertices.edges 1 0 ≠ 0) ∧ (5 : Int) ≠ 0 ∧
      twoVertices.nE < 2147483647 ∧
      ∃ g1, insertEdge twoVertices 0 1 5 = some g1 ∧ insertEdge g1 0 1 9 = some g1 ∧
        g1.edges 0 1 = 5 ∧ g1.edges 1 0 = 5 ∧ g1.nE = twoVertices.nE + 1 :=
  ⟨by decide, by decide, by decide, by decide, by decide,
    insertEdge_twice twoVertices 0 1 5 9 (by decide) (by decide) (by decide) (by decide)
      (by decide)⟩

/-! ## `findPath`: the source as destination -/

/-- C6: for a valid vertex `src` and every `max` (also `max <= 0`),
`findPath (g, src, src, max, path)` returns 1 after the single store
`path[0] = src`, with any amount of fuel, and leaves the graph as it was. -/
theorem findPath_self (fuel : Nat) (g : GraphRep) (src : Vertex) (max : Int)
    (hs : validV g src) :
    ∃ r, findPath fuel g src src max = some (Outcome.returned r) ∧ r.hops = 1 ∧
      r.writes = [(0, src)] ∧ (∀ p, store p r.writes 0 = src) ∧ r.graph = some g := by
  have _ := hs
  refine ⟨{ hops := 1, writes := [(0, src)], graph := some g }, ?_, rfl, rfl, ?_, rfl⟩
  · simp [findPath]
  · intro p; simp [store]

theorem findPath_self_witness :
    validV oneEdge 1 ∧
      ∃ r, findPath 0 oneEdge 1 1 (-3) = some (Outcome.returned r) ∧ r.hops = 1 ∧
        r.writes = [(0, 1)] ∧ (∀ p, store p r.writes 0 = 1) ∧ r.graph = some oneEdge :=
  ⟨by decide, findPath_self 0 oneEdge 1 (-3) (by decide)⟩

/-! ## Lists of vertices and counting -/

theorem mem_vertices (g : GraphRep) (v : Vertex) : v ∈ vertices g ↔ validV g v := by
  unfold vertices validV
  simp only [List.mem_map, List.mem_range]
  constructor
  · rintro ⟨n, hn, rfl⟩
    exact ⟨Int.ofNat_nonneg n, Int.ofNat_lt.mpr hn⟩
  · rintro ⟨h0, h1⟩
    refine ⟨v.toNat, ?_, ?_⟩
    · exact (Int.toNat_lt h0).mpr h1
    · exact Int.toNat_of_nonneg h0

theorem vertices_nodup (g : GraphRep) : (vertices g).Nodup :=
  List.Nodup.map Int.ofNat_injective (List.nodup_range g.nV)

theorem vertices_length (g : GraphRep) : (vertices g).length = g.nV := by
  simp [vertices]

/-- Changing a predicate from false to true at one element of a list without
repetition adds one to the number of elements that satisfy it. -/
theorem filter_length_flip (l : List Vertex) (p q : Vertex → Prop) [DecidablePred p]
    [DecidablePred q] (c : Vertex) (hl : l.Nodup) (hc : c ∈ l) (hp : ¬ p c) (hq : q c)
    (hpq : ∀ v, v ≠ c → (p v ↔ q v)) :
    (l.filter (fun v => decide (q v))).length = (l.filter (fun v => decide (p v))).length + 1 := by
  induction l with
  | nil => cases hc
  | cons a l ih =>
    have hnd := List.nodup_cons.mp hl
    by_cases hac : a = c
    · subst hac
      have hsame : l.filter (fun v => decide (q v)) = l.filter (fun v => decide (p v)) := by
        apply List.filter_congr
        intro v hv
        have hva : v ≠ a := fun h => hnd.1 (h ▸ hv)
        simp [hpq v hva]
      simp [List.filter_cons, hp, hq, hsame]
    · have hcl : c ∈ l := by
        rcases List.mem_cons.mp hc with h | h
        · exact absurd h.symm hac
        · exact h
      have := ih hnd.2 hcl
      by_cases hpa : p a
      · have hqa : q a := (hpq a hac).mp hpa
        simp [List.filter_cons, hpa, hqa, this]
      · have hqa : ¬ q a := fun h => hpa ((hpq a hac).mpr h)
        simp [List.filter_cons, hpa, hqa, this]

/-- Two predicates that exclude each other are satisfied by at most as many
elements as the list has. -/
theorem filter_length_disjoint (l : List Vertex) (p q : Vertex → Prop) [DecidablePred p]
    [DecidablePred q] (hpq : ∀ v, ¬ (p v ∧ q v)) :
    (l.filter (fun v => decide (p v))).length + (l.filter (fun v => decide (q v))).length
      ≤ l.length := by
  induction l with
  | nil => simp
  | cons a l ih =>
    by_cases hpa : p a <;> by_cases hqa : q a
    · exact absurd ⟨hpa, hqa⟩ (hpq a)
    · simp [List.filter_cons, hpa, hqa]; omega
    · simp [List.filter_cons, hpa, hqa]; omega
    · simp [List.filter_cons, hpa, hqa]; omega

theorem setParent_same (visited : Vertex → Int) (c : Vertex) (x : Int) :
    setParent visited c x c = x := by
  simp [setParent]

theorem setParent_other (visited : Vertex → Int) (c v : Vertex) (x : Int) (h : v ≠ c) :
    setParent visited c x v = visited v := by
  simp [setParent, h]

theorem unmarked_setParent (g : GraphRep) (visited : Vertex → Int) (c : Vertex) (x : Int)
    (hc : validV g c) (hv : visited c = -1) (hx : x ≠ -1) :
    unmarked g visited = unmarked g (setParent visited c x) + 1 := by
  unfold unmarked
  refine filter_length_flip (vertices g) (fun v => setParent visited c x v = -1)
    (fun v => visited v = -1) c (vertices_nodup g) ((mem_vertices g c).mpr hc) ?_ hv ?_
  · beta_reduce; rw [setParent_same]; exact hx
  · intro v hvc; beta_reduce; rw [setParent_other _ _ _ _ hvc]

theorem marked_setParent (g : GraphRep) (src : Vertex) (visited : Vertex → Int) (c : Vertex)
    (x : Int) (hc : validV g c) (hcs : c ≠ src) (hv : visited c = -1) (hx : x ≠ -1) :
    marked g src (setParent visited c x) = marked g src visited + 1 := by
  unfold marked
  refine filter_length_flip (vertices g) (fun v => v ≠ src ∧ visited v ≠ -1)
    (fun v => v ≠ src ∧ setParent visited c x v ≠ -1) c (vertices_nodup g)
    ((mem_vertices g c).mpr hc) ?_ ?_ ?_
  · intro h; exact h.2 hv
  · exact ⟨hcs, by rw [setParent_same]; exact hx⟩
  · intro v hvc; beta_reduce; rw [setParent_other _ _ _ _ hvc]

theorem marked_setParent_src (g : GraphRep) (src : Vertex) (visited : Vertex → Int) (x : Int) :
    marked g src (setParent visited src x) = marked g src visited := by
  unfold marked
  congr 1
  apply List.filter_congr
  intro v _
  by_cases h : v = src
  · simp [h]
  · simp [h, setParent_other _ _ _ _ h]

theorem marked_lt (g : GraphRep) (src : Vertex) (visited : Vertex → Int) (hs : validV g src) :
    marked g src visited < g.nV := by
  have h1 := filter_length_disjoint (vertices g) (fun v => v ≠ src ∧ visited v ≠ -1)
    (fun v => v = src) (fun v h => h.1.1 h.2)
  have h2 : 0 < ((vertices g).filter (fun v => decide (v = src))).length := by
    apply List.length_pos_of_mem (a := src)
    simp [List.mem_filter, (mem_vertices g src).mpr hs]
  rw [vertices_length] at h1
  beta_reduce at h1
  unfold marked
  omega

/-! ## `realPath`: the route and the stores into `path` -/

theorem fillPath_length (l : List Vertex) : fillPath l.length l = some (descStores l) := by
  induction l with
  | nil => rfl
  | cons v l ih => simp [fillPath, QueueLeave, ih, descStores]

theorem descStores_indices (l : List Vertex) :
    (descStores l).map Prod.fst = ((List.range l.length).map Int.ofNat).reverse := by
  induction l with
  | nil => rfl
  | cons v l ih =>
    simp only [descStores, List.map_cons, ih, List.length_cons, List.range_succ, List.map_append,
      List.map_nil, List.reverse_append, List.reverse_cons, List.reverse_nil, List.nil_append,
      List.singleton_append, List.cons.injEq, and_true]
    rfl

/-- Entries at or above the length of the route, and entries below zero, are
not touched by the stores. -/
theorem store_descStores_frame (l : List Vertex) :
    ∀ (p : Int → Vertex) (k : Int), (k < 0 ∨ (l.length : Int) ≤ k) →
      store p (descStores l) k = p k := by
  induction l with
  | nil => intro p k _; rfl
  | cons v l ih =>
    intro p k hk
    simp only [descStores, store]
    rw [ih]
    · have hne : k ≠ (l.length : Int) := by
        simp only [List.length_cons, Nat.cast_add, Nat.cast_one] at hk
        omega
      simp [hne]
    · simp only [List.length_cons, Nat.cast_add, Nat.cast_one] at hk
      omega

/-- Read back in index order, the stores give the route reversed. -/
theorem store_descStores_read (l : List Vertex) :
    ∀ (p : Int → Vertex),
      (List.range l.length).map (fun (i : Nat) => store p (descStores l) (i : Int)) = l.reverse := by
  induction l with
  | nil => intro p; rfl
  | cons v l ih =>
    intro p
    simp only [List.length_cons, List.range_succ, List.map_append, List.map_cons, List.map_nil,
      List.reverse_cons, descStores, store]
    rw [ih]
    congr 1
    rw [store_descStores_frame l _ _ (Or.inr (le_refl _))]
    simp

theorem store_descStores_zero (l : List Vertex) (src : Vertex) (p : Int → Vertex) :
    store p (descStores (l ++ [src])) 0 = src := by
  have h := store_descStores_read (l ++ [src]) p
  have h0 := congrArg List.head? h
  simp only [List.length_append, List.length_singleton, List.reverse_append, List.reverse_cons,
    List.reverse_nil, List.nil_append, List.singleton_append, List.head?_cons] at h0
  rw [List.range_succ_eq_map] at h0
  simpa using h0

theorem store_descStores_top (v : Vertex) (l : List Vertex) (p : Int → Vertex) :
    store p (descStores (v :: l)) (l.length : Int) = v := by
  simp only [descStores, store]
  rw [store_descStores_frame l _ _ (Or.inr (le_refl _))]
  simp

/-- When the loop of `realPath` ends, the route has grown by the vertices it
went through, `current` first, and `hops` by their number. -/
theorem backtrack_route (src : Vertex) (visited : Vertex → Int) :
    ∀ (fuel : Nat) (current : Vertex) (route : Queue) (hops : Int) (route1 : Queue) (hops1 : Int),
      backtrack src visited fuel current route hops = some (route1, hops1) →
      ∃ steps : List Vertex, route1 = route ++ steps ∧ hops1 = hops + (steps.length : Int) ∧
        (current ≠ src → steps.head? = some current) := by
  intro fuel
  induction fuel with
  | zero => intro current route hops route1 hops1 h; simp [backtrack] at h
  | succ fuel ih =>
    intro current route hops route1 hops1 h
    simp only [backtrack] at h
    split_ifs at h with hc
    · obtain ⟨steps, h1, h2, _⟩ := ih _ _ _ _ _ h
      refine ⟨current :: steps, ?_, ?_, fun _ => rfl⟩
      · rw [h1]; simp [QueueJoin]
      · rw [h2]; simp only [List.length_cons, Nat.cast_add, Nat.cast_one]; omega
    · simp only [Option.some.injEq, Prod.mk.injEq] at h
      refine ⟨[], ?_, ?_, fun hne => absurd hne hc⟩
      · simp [h.1]
      · simp [h.2]

/-- What `realPath` returns when it returns: the stores are those of
`fillPath` on a route that starts with `dest` and ends with `src`, and the hop
count is the length of that route. -/
theorem realPath_route (fuel : Nat) (src dest : Vertex) (visited : Vertex → Int) (nV : Nat)
    (hops : Int) (ws : List (Int × Vertex)) (hne : src ≠ dest)
    (h : realPath fuel src dest visited nV = some (hops, ws)) :
    ∃ steps : List Vertex, ws = descStores (dest :: steps ++ [src]) ∧
      hops = ((dest :: steps ++ [src]).length : Int) := by
  unfold realPath at h
  cases hb : backtrack src visited fuel dest newQueue 0 with
  | none => simp [hb] at h
  | some rh =>
    obtain ⟨route, hops0⟩ := rh
    obtain ⟨steps, h1, h2, h3⟩ := backtrack_route src visited fuel dest newQueue 0 route hops0 hb
    have hd := h3 (Ne.symm hne)
    cases steps with
    | nil => simp at hd
    | cons d steps =>
      simp only [List.head?_cons, Option.some.injEq] at hd
      subst hd
      simp only [hb] at h
      have hlen : (hops0 + 1).toNat = (QueueJoin route src).length := by
        rw [h1, h2]; simp [QueueJoin, newQueue]; omega
      rw [hlen, fillPath_length] at h
      simp only [Option.map_some', Option.some.injEq, Prod.mk.injEq] at h
      refine ⟨steps, ?_, ?_⟩
      · rw [← h.2, h1]; simp [QueueJoin, newQueue]
      · rw [← h.1, h2]; simp

/-- Whenever `findPath` returns a positive hop count `h`, the stores it
performed are exactly `path[h-1], ..., path[0]`, every other entry of the
buffer keeps its content, `path[0] = src` and `path[h-1] = dest`. -/
theorem findPath_stores (fuel : Nat) (g : GraphRep) (src dest : Vertex) (max : Int)
    (r : FindResult) (h : findPath fuel g src dest max = some (Outcome.returned r))
    (hpos : 0 < r.hops) :
    r.writes.map Prod.fst = ((List.range r.hops.toNat).map Int.ofNat).reverse ∧
      ∀ p : Int → Vertex, store p r.writes 0 = src ∧ store p r.writes (r.hops - 1) = dest ∧
        ∀ k : Int, (k < 0 ∨ r.hops ≤ k) → store p r.writes k = p k := by
  unfold findPath at h
  split_ifs at h with hsd
  · cases h
    subst hsd
    refine ⟨rfl, fun p => ⟨by simp [store], by simp [store], ?_⟩⟩
    intro k hk
    have hk0 : k ≠ 0 := by
      simp only at hk
      omega
    simp [store, hk0]
  · cases hb : bfsLoop g dest max fuel (QueueJoin newQueue src) (fun _ => -1) with
    | none => simp [hb] at h
    | some out =>
      cases out with
      | exhausted visited =>
        simp [hb] at h
      | found visited =>
        simp only [hb] at h
        cases hr : realPath fuel src dest visited g.nV with
        | none => simp [hr] at h
        | some hw =>
          obtain ⟨hops, ws⟩ := hw
          simp only [hr, Option.map_some', Option.some.injEq, Outcome.returned.injEq] at h
          subst h
          obtain ⟨steps, hws, hhops⟩ := realPath_route fuel src dest visited g.nV hops ws hsd hr
          subst hws
          simp only
          refine ⟨?_, fun p => ⟨?_, ?_, ?_⟩⟩
          · rw [descStores_indices, hhops, Int.toNat_ofNat]
          · exact store_descStores_zero (dest :: steps) src p
          · have htop := store_descStores_top dest (steps ++ [src]) p
            have hidx : hops - 1 = ((steps ++ [src]).length : Int) := by
              rw [hhops]; simp
            rw [hidx]
            exact htop
          · intro k hk
            apply store_descStores_frame
            rw [← hhops]
            exact hk

/-! ## The invariant of the search -/

theorem validV_ne_neg_one (g : GraphRep) (v : Vertex) (h : validV g v) : v ≠ -1 := by
  intro hv
  subst hv
  exact absurd h.1 (by decide)

/-- A chain towards `src` is not disturbed by setting an entry that was `-1`,
nor by setting the entry of `src` itself. -/
theorem ChainTo_setParent (src : Vertex) (visited : Vertex → Int) (c : Vertex) (x : Int)
    (hc : c = src ∨ visited c = -1) (v : Vertex) (k : Nat) (h : ChainTo src visited v k) :
    ChainTo src (setParent visited c x) v k := by
  induction h with
  | base => exact ChainTo.base
  | @step v k hv hm _ ih =>
    have hvc : v ≠ c := by
      rcases hc with hc | hc
      · rw [hc]; exact hv
      · intro e; rw [e] at hm; exact hm hc
    refine ChainTo.step hv ?_ ?_
    · rw [setParent_other _ _ _ _ hvc]; exact hm
    · rw [setParent_other _ _ _ _ hvc]; exact ih

theorem marked_le_setParent (g : GraphRep) (src : Vertex) (visited : Vertex → Int) (c : Vertex)
    (x : Int) (hc : validV g c) (hv : visited c = -1) (hx : x ≠ -1) :
    marked g src visited ≤ marked g src (setParent visited c x) := by
  by_cases hcs : c = src
  · rw [hcs, marked_setParent_src]
  · rw [marked_setParent g src visited c x hc hcs hv hx]; omega

/-- One accepted child: it joins the queue and its `visited` entry is set to
the vertex being scanned.  The invariant is kept. -/
theorem BfsInv_join (g : GraphRep) (src dest : Vertex) (max : Int) (P : List Vertex)
    (curr : Vertex) (Q : Queue) (visited : Vertex → Int) (c : Vertex)
    (hinv : BfsInv g src dest max P (curr :: Q) visited) (hc : validV g c)
    (hv : visited c = -1) :
    BfsInv g src dest max P (curr :: QueueJoin Q c) (setParent visited c curr) := by
  have hcurr := hinv.waiting curr (List.mem_cons_self _ _)
  have hx : curr ≠ -1 := validV_ne_neg_one g curr hcurr.1
  refine ⟨?_, ?_, ?_, ?_, hinv.dest_open, ?_⟩
  · intro v hvW
    by_cases hvc : v = c
    · subst hvc
      exact ⟨hc, Or.inr (by rw [setParent_same]; exact hx)⟩
    · have hvW1 : v ∈ curr :: Q := by
        simp only [QueueJoin, List.mem_cons, List.mem_append, List.not_mem_nil, or_false] at hvW
        rcases hvW with h | h | h
        · exact h ▸ List.mem_cons_self _ _
        · exact List.mem_cons_of_mem _ h
        · exact absurd h hvc
      have := hinv.waiting v hvW1
      rw [setParent_other _ _ _ _ hvc]
      exact this
  · rcases hinv.source with h | h
    · exact Or.inl h
    · refine Or.inr ?_
      simp only [QueueJoin, List.mem_cons, List.mem_append] at h ⊢
      tauto
  · intro v hm
    by_cases hvc : v = c
    · subst hvc
      exact ⟨hc, Or.inr (by simp [QueueJoin])⟩
    · rw [setParent_other _ _ _ _ hvc] at hm
      obtain ⟨h1, h2⟩ := hinv.seen v hm
      refine ⟨h1, ?_⟩
      rcases h2 with h | h
      · exact Or.inl h
      · refine Or.inr ?_
        simp only [QueueJoin, List.mem_cons, List.mem_append] at h ⊢
        tauto
  · intro u hu c1 hc1 hadm
    have := hinv.closed u hu c1 hc1 hadm
    have hne : c1 ≠ c := fun e => this (e ▸ hv)
    rw [setParent_other _ _ _ _ hne]
    exact this
  · intro v hvs hm
    by_cases hvc : v = c
    · subst hvc
      rcases hcurr.2 with hcs | hcm
      · refine ⟨1, ChainTo.step hvs hm ?_, ?_⟩
        · rw [setParent_same, hcs]; exact ChainTo.base
        · rw [marked_setParent g src visited v curr hc hvs hv hx]; omega
      · by_cases hcs : curr = src
        · refine ⟨1, ChainTo.step hvs hm ?_, ?_⟩
          · rw [setParent_same, hcs]; exact ChainTo.base
          · rw [marked_setParent g src visited v curr hc hvs hv hx]; omega
        · obtain ⟨k, hk, hkm⟩ := hinv.chain curr hcs hcm
          refine ⟨k + 1, ChainTo.step hvs hm ?_, ?_⟩
          · rw [setParent_same]
            exact ChainTo_setParent src visited v curr (Or.inr hv) curr k hk
          · rw [marked_setParent g src visited v curr hc hvs hv hx]; omega
    · rw [setParent_other _ _ _ _ hvc] at hm
      obtain ⟨k, hk, hkm⟩ := hinv.chain v hvs hm
      refine ⟨k, ChainTo_setParent src visited c curr (Or.inr hv) v k hk, ?_⟩
      exact le_trans hkm (marked_le_setParent g src visited c curr hc hv hx)

/-- The scan of a list of children keeps the invariant, never resets an entry
of `visited`, marks every child that the edge test accepts, and keeps the sum
of the number of unmarked vertices and the length of the queue. -/
theorem scanChildren_inv (g : GraphRep) (src dest : Vertex) (max : Int) (P : List Vertex)
    (curr : Vertex) :
    ∀ (cs : List Vertex) (Q : Queue) (visited : Vertex → Int),
      (∀ c ∈ cs, validV g c) → BfsInv g src dest max P (curr :: Q) visited →
      BfsInv g src dest max P (curr :: (scanChildren g max curr cs Q visited).1)
          (scanChildren g max curr cs Q visited).2 ∧
        (∀ v, visited v ≠ -1 → (scanChildren g max curr cs Q visited).2 v ≠ -1) ∧
        (∀ c ∈ cs, admits g max curr c → (scanChildren g max curr cs Q visited).2 c ≠ -1) ∧
        unmarked g (scanChildren g max curr cs Q visited).2 +
            (scanChildren g max curr cs Q visited).1.length =
          unmarked g visited + Q.length := by
  intro cs
  induction cs with
  | nil =>
    intro Q visited _ hinv
    exact ⟨hinv, fun _ h => h, fun _ h => absurd h (List.not_mem_nil _), rfl⟩
  | cons c cs ih =>
    intro Q visited hcs hinv
    have hc : validV g c := hcs c (List.mem_cons_self _ _)
    have hcs1 : ∀ c1 ∈ cs, validV g c1 := fun c1 h => hcs c1 (List.mem_cons_of_mem _ h)
    by_cases hskip : g.edges curr c = 0 ∨ g.edges curr c > max ∨ visited c ≠ -1
    · simp only [scanChildren, if_pos hskip]
      obtain ⟨h1, h2, h3, h4⟩ := ih Q visited hcs1 hinv
      refine ⟨h1, h2, ?_, h4⟩
      intro c1 hc1 hadm
      rcases List.mem_cons.mp hc1 with e | hmem
      · subst e
        apply h2
        unfold admits at hadm
        tauto
      · exact h3 c1 hmem hadm
    · simp only [scanChildren, if_neg hskip]
      have hv : visited c = -1 := by
        by_contra hne
        exact hskip (Or.inr (Or.inr hne))
      have hcurr := hinv.waiting curr (List.mem_cons_self _ _)
      have hx : curr ≠ -1 := validV_ne_neg_one g curr hcurr.1
      have hinv1 := BfsInv_join g src dest max P curr Q visited c hinv hc hv
      obtain ⟨h1, h2, h3, h4⟩ := ih (QueueJoin Q c) (setParent visited c curr) hcs1 hinv1
      refine ⟨h1, ?_, ?_, ?_⟩
      · intro v hm
        apply h2
        have hvc : v ≠ c := fun e => hm (e ▸ hv)
        rw [setParent_other _ _ _ _ hvc]
        exact hm
      · intro c1 hc1 hadm
        rcases List.mem_cons.mp hc1 with e | hmem
        · subst e
          apply h2
          rw [setParent_same]
          exact hx
        · exact h3 c1 hmem hadm
      · rw [h4, unmarked_setParent g visited c curr hc hv hx]
        simp only [QueueJoin, List.length_append, List.length_singleton]
        omega

/-- Once all children of the vertex in front have been scanned it counts as
processed. -/
theorem BfsInv_done (g : GraphRep) (src dest : Vertex) (max : Int) (P : List Vertex)
    (curr : Vertex) (Q : Queue) (visited : Vertex → Int)
    (hinv : BfsInv g src dest max P (curr :: Q) visited) (hcd : curr ≠ dest)
    (hcov : ∀ c, validV g c → admits g max curr c → visited c ≠ -1) :
    BfsInv g src dest max (curr :: P) Q visited := by
  refine ⟨?_, ?_, ?_, ?_, ?_, hinv.chain⟩
  · intro v hv
    exact hinv.waiting v (List.mem_cons_of_mem _ hv)
  · rcases hinv.source with h | h
    · exact Or.inl (List.mem_cons_of_mem _ h)
    · rcases List.mem_cons.mp h with e | h1
      · exact Or.inl (e ▸ List.mem_cons_self _ _)
      · exact Or.inr h1
  · intro v hm
    obtain ⟨h1, h2⟩ := hinv.seen v hm
    refine ⟨h1, ?_⟩
    rcases h2 with h | h
    · exact Or.inl (List.mem_cons_of_mem _ h)
    · rcases List.mem_cons.mp h with e | h3
      · exact Or.inl (e ▸ List.mem_cons_self _ _)
      · exact Or.inr h3
  · intro u hu c hc hadm
    rcases List.mem_cons.mp hu with e | h
    · subst e; exact hcov c hc hadm
    · exact hinv.closed u h c hc hadm
  · intro h
    rcases List.mem_cons.mp h with e | h1
    · exact hcd e.symm
    · exact hinv.dest_open h1

/-- With more fuel than unmarked vertices plus queued vertices, the loop of
`findPath` ends, and it ends in a state that satisfies the invariant: with
`dest` in front of the queue, or with an empty queue. -/
theorem bfsLoop_ends (g : GraphRep) (src dest : Vertex) (max : Int) :
    ∀ (fuel : Nat) (P : List Vertex) (Q : Queue) (visited : Vertex → Int),
      BfsInv g src dest max P Q visited → unmarked g visited + Q.length < fuel →
      (∃ P1 Q1 visited1, bfsLoop g dest max fuel Q visited = some (BfsOutcome.found visited1) ∧
          BfsInv g src dest max P1 (dest :: Q1) visited1) ∨
        (∃ P1 visited1, bfsLoop g dest max fuel Q visited = some (BfsOutcome.exhausted visited1) ∧
          BfsInv g src dest max P1 [] visited1) := by
  intro fuel
  induction fuel with
  | zero => intro P Q visited _ h; omega
  | succ fuel ih =>
    intro P Q visited hinv hfuel
    cases Q with
    | nil => exact Or.inr ⟨P, visited, rfl, hinv⟩
    | cons curr Q1 =>
      by_cases hcd : curr = dest
      · subst hcd
        exact Or.inl ⟨P, Q1, visited, by simp [bfsLoop, QueueLeave], hinv⟩
      · obtain ⟨h1, _, h3, h4⟩ := scanChildren_inv g src dest max P curr (vertices g) Q1 visited
          (fun c hc => (mem_vertices g c).mp hc) hinv
        have hdone := BfsInv_done g src dest max P curr _ _ h1 hcd
          (fun c hc hadm => h3 c ((mem_vertices g c).mpr hc) hadm)
        have hlt : unmarked g (scanChildren g max curr (vertices g) Q1 visited).2 +
            (scanChildren g max curr (vertices g) Q1 visited).1.length < fuel := by
          rw [h4]
          simp only [List.length_cons] at hfuel
          omega
        have := ih (curr :: P) _ _ hdone hlt
        simpa [bfsLoop, QueueLeave, hcd] using this

theorem BfsInv_start (g : GraphRep) (src dest : Vertex) (max : Int) (hs : validV g src) :
    BfsInv g src dest max [] (QueueJoin newQueue src) (fun _ => -1) := by
  refine ⟨?_, ?_, ?_, ?_, ?_, ?_⟩
  · intro v hv
    simp only [QueueJoin, newQueue, List.nil_append, List.mem_singleton] at hv
    subst hv
    exact ⟨hs, Or.inl rfl⟩
  · exact Or.inr (by simp [QueueJoin, newQueue])
  · intro v hm; exact absurd rfl hm
  · intro u hu; cases hu
  · intro h; cases h
  · intro v _ hm; exact absurd rfl hm

theorem unmarked_start (g : GraphRep) : unmarked g (fun _ => -1) = g.nV := by
  simp [unmarked, vertices_length]

/-- Along a chain of `k` steps the loop of `realPath` ends as soon as the fuel
exceeds `k`, with `k` more hops and `k` more vertices on the route. -/
theorem backtrack_of_chain (src : Vertex) (visited : Vertex → Int) (v : Vertex) (k : Nat)
    (h : ChainTo src visited v k) :
    ∀ (fuel : Nat) (route : Queue) (hops : Int), k < fuel →
      ∃ steps : List Vertex, steps.length = k ∧
        backtrack src visited fuel v route hops = some (route ++ steps, hops + (k : Int)) := by
  induction h with
  | base =>
    intro fuel route hops hf
    cases fuel with
    | zero => omega
    | succ fuel => exact ⟨[], rfl, by simp [backtrack]⟩
  | @step v k hv _ _ ih =>
    intro fuel route hops hf
    cases fuel with
    | zero => omega
    | succ fuel =>
      obtain ⟨steps, hlen, hb⟩ := ih fuel (QueueJoin route v) (hops + 1) (by omega)
      refine ⟨v :: steps, by simp [hlen], ?_⟩
      have e1 : QueueJoin route v ++ steps = route ++ v :: steps := by simp [QueueJoin]
      have e2 : hops + 1 + (k : Int) = hops + ((k + 1 : Nat) : Int) := by push_cast; ring
      have e3 : backtrack src visited (fuel + 1) v route hops =
          backtrack src visited fuel (visited v) (QueueJoin route v) (hops + 1) := by
        simp only [backtrack, if_pos hv]
      rw [e3, hb, e1, e2]

/-- When the queue has run empty, every vertex of a walk that starts at a
processed vertex and follows edges the test accepts has been processed. -/
theorem closed_walk (g : GraphRep) (src dest : Vertex) (max : Int) (P : List Vertex)
    (visited : Vertex → Int) (hinv : BfsInv g src dest max P [] visited) :
    ∀ (p : List Vertex) (a : Vertex), Linked (admits g max) p → (∀ v ∈ p, validV g v) →
      p.head? = some a → a ∈ P → ∀ v ∈ p, v ∈ P := by
  intro p
  induction p with
  | nil => intro a _ _ _ _ v hv; cases hv
  | cons x rest ih =>
    intro a hch hval hhead ha v hv
    simp only [List.head?_cons, Option.some.injEq] at hhead
    subst hhead
    rcases List.mem_cons.mp hv with e | hmem
    · rw [e]; exact ha
    · cases rest with
      | nil => cases hmem
      | cons b rest1 =>
        have hab : admits g max x b := hch.1
        have hb : validV g b := hval b (List.mem_cons_of_mem _ (List.mem_cons_self _ _))
        have hbm := hinv.closed x ha b hb hab
        have hbP : b ∈ P := by
          rcases (hinv.seen b hbm).2 with h | h
          · exact h
          · cases h
        exact ih b hch.2
          (fun w hw => hval w (List.mem_cons_of_mem _ hw)) rfl hbP v hmem

theorem Linked_imp (ok1 ok2 : Vertex → Vertex → Prop) (h : ∀ a b, ok1 a b → ok2 a b) :
    ∀ p : List Vertex, Linked ok1 p → Linked ok2 p
  | [], _ => trivial
  | [_], _ => trivial
  | a :: b :: rest, hl => ⟨h a b hl.1, Linked_imp ok1 ok2 h (b :: rest) hl.2⟩

theorem delAdmits_admits (g : GraphRep) (max : Int) (a b : Vertex) (h : delAdmits g max a b) :
    admits g max a b := by
  unfold delAdmits at h
  unfold admits
  intro hor
  rcases hor with h0 | hgt
  · exact h.1 h0
  · have := h.2
    omega

/-- The three ways a call of `findPath` on a valid source ends, given fuel
`nV + 2`: at once when `src == dest`; through `realPath` when `dest` left the
queue, with a chain of `k < nV` steps from `dest` to `src`; or on the no-path
exit, with the graph released, when the queue ran empty. -/
theorem findPath_outcome (g : GraphRep) (src dest : Vertex) (max : Int)
    (hs : validV g src) (fuel : Nat) (hfuel : g.nV + 2 ≤ fuel) :
    (src = dest ∧
        findPath fuel g src dest max =
          some (Outcome.returned { hops := 1, writes := [(0, src)], graph := some g })) ∨
      (src ≠ dest ∧ ∃ (P Q : List Vertex) (visited : Vertex → Int) (k : Nat) (steps : List Vertex),
        BfsInv g src dest max P (dest :: Q) visited ∧ ChainTo src visited dest k ∧ k < g.nV ∧
        steps.length = k ∧
        findPath fuel g src dest max =
          some (Outcome.returned
            { hops := (k : Int) + 1, writes := descStores (steps ++ [src]), graph := some g })) ∨
      (src ≠ dest ∧ ∃ (P : List Vertex) (visited : Vertex → Int),
        BfsInv g src dest max P [] visited ∧
        findPath fuel g src dest max = some Outcome.released) := by
  by_cases hsd : src = dest
  · exact Or.inl ⟨hsd, by simp [findPath, hsd]⟩
  · have hstart := BfsInv_start g src dest max hs
    have hm : unmarked g (fun _ => -1) + (QueueJoin newQueue src).length < fuel := by
      have hq : (QueueJoin newQueue src).length = 1 := rfl
      rw [unmarked_start, hq]; omega
    rcases bfsLoop_ends g src dest max fuel [] _ _ hstart hm with
      ⟨P1, Q1, visited1, hb, hinv⟩ | ⟨P1, visited1, hb, hinv⟩
    · have hdw := (hinv.waiting dest (List.mem_cons_self _ _)).2
      have hdm : visited1 dest ≠ -1 := by
        rcases hdw with e | h
        · exact absurd e.symm hsd
        · exact h
      obtain ⟨k, hk, hkm⟩ := hinv.chain dest (Ne.symm hsd) hdm
      have hlt := marked_lt g src visited1 hs
      obtain ⟨steps, hlen, hbt⟩ := backtrack_of_chain src visited1 dest k hk fuel newQueue 0
        (by omega)
      have hfill : fillPath ((0 : Int) + (k : Int) + 1).toNat (QueueJoin (newQueue ++ steps) src) =
          some (descStores (QueueJoin (newQueue ++ steps) src)) := by
        have hl : ((0 : Int) + (k : Int) + 1).toNat = (QueueJoin (newQueue ++ steps) src).length := by
          simp [QueueJoin, newQueue, hlen]
        rw [hl, fillPath_length]
      refine Or.inr (Or.inl ⟨hsd, P1, Q1, visited1, k, steps, hinv, hk, by omega, hlen, ?_⟩)
      simp only [findPath, if_neg hsd, hb, realPath, hbt, hfill, Option.map_some']
      simp only [QueueJoin, newQueue, List.nil_append, zero_add]
    · refine Or.inr (Or.inr ⟨hsd, P1, visited1, hinv, ?_⟩)
      simp only [findPath, if_neg hsd, hb]

/-- A call of `findPath` on a valid source ends: fuel `nV + 2` is enough.  It
ends with a returned result, whose hop count is between 1 and the number of
vertices, or on the no-path exit. -/
theorem findPath_ends (g : GraphRep) (src dest : Vertex) (max : Int)
    (hs : validV g src) (fuel : Nat) (hfuel : g.nV + 2 ≤ fuel) :
    ∃ o, findPath fuel g src dest max = some o ∧
      (o = Outcome.released ∨
        ∃ r, o = Outcome.returned r ∧ 0 < r.hops ∧ r.hops ≤ (g.nV : Int)) := by
  have h0 : (0 : Int) ≤ src := hs.1
  have h1 : @LT.lt Int _ src (g.nV : Int) := hs.2
  rcases findPath_outcome g src dest max hs fuel hfuel with
    ⟨_, h⟩ | ⟨_, _, _, _, k, _, _, _, hk, _, h⟩ | ⟨_, _, _, _, h⟩
  · refine ⟨_, h, Or.inr ⟨_, rfl, ?_, ?_⟩⟩
    · show (0 : Int) < 1
      omega
    · show (1 : Int) ≤ (g.nV : Int)
      omega
  · refine ⟨_, h, Or.inr ⟨_, rfl, ?_, ?_⟩⟩
    · show (0 : Int) < (k : Int) + 1
      omega
    · show (k : Int) + 1 ≤ (g.nV : Int)
      omega
  · exact ⟨_, h, Or.inl rfl⟩

/-- Whenever a walk from `src` to `dest` exists along edges that the test of
`del2.c` accepts, `findPath` returns a positive hop count and leaves the graph
in place; fuel `nV + 2` is enough. -/
theorem findPath_reaches (g : GraphRep) (src dest : Vertex) (max : Int)
    (hs : validV g src) (p : List Vertex) (hw : IsWalk g (admits g max) src dest p)
    (fuel : Nat) (hfuel : g.nV + 2 ≤ fuel) :
    ∃ r, findPath fuel g src dest max = some (Outcome.returned r) ∧ 0 < r.hops ∧
      r.graph = some g := by
  obtain ⟨hhead, hlast, hval, hch⟩ := hw
  rcases findPath_outcome g src dest max hs fuel hfuel with
    ⟨_, h⟩ | ⟨_, _, _, _, k, _, _, _, _, _, h⟩ | ⟨_, P1, visited1, hinv, _⟩
  · exact ⟨_, h, Int.one_pos, rfl⟩
  · refine ⟨_, h, ?_, rfl⟩
    show (0 : Int) < (k : Int) + 1
    omega
  · exfalso
    have hsP : src ∈ P1 := by
      rcases hinv.source with h | h
      · exact h
      · cases h
    have hdp : dest ∈ p := List.mem_of_mem_getLast? hlast
    exact hinv.dest_open (closed_walk g src dest max P1 visited1 hinv p src hch hval hhead hsP
      dest hdp)

/-! ## Fuel -/

theorem bfsLoop_fuel (g : GraphRep) (dest : Vertex) (max : Int) :
    ∀ (fuel : Nat) (Q : Queue) (visited : Vertex → Int) (out : BfsOutcome),
      bfsLoop g dest max fuel Q visited = some out →
      bfsLoop g dest max (fuel + 1) Q visited = some out := by
  intro fuel
  induction fuel with
  | zero => intro Q visited out h; simp [bfsLoop] at h
  | succ fuel ih =>
    intro Q visited out h
    cases Q with
    | nil => simpa [bfsLoop, QueueLeave] using h
    | cons curr Q1 =>
      by_cases hcd : curr = dest
      · simpa [bfsLoop, QueueLeave, hcd] using h
      · have h1 : bfsLoop g dest max fuel (scanChildren g max curr (vertices g) Q1 visited).1
            (scanChildren g max curr (vertices g) Q1 visited).2 = some out := by
          simpa [bfsLoop, QueueLeave, hcd] using h
        have h2 := ih _ _ out h1
        rw [bfsLoop]
        simp only [QueueLeave, if_neg hcd]
        exact h2

theorem backtrack_fuel (src : Vertex) (visited : Vertex → Int) :
    ∀ (fuel : Nat) (current : Vertex) (route : Queue) (hops : Int) (res : Queue × Int),
      backtrack src visited fuel current route hops = some res →
      backtrack src visited (fuel + 1) current route hops = some res := by
  intro fuel
  induction fuel with
  | zero => intro current route hops res h; simp [backtrack] at h
  | succ fuel ih =>
    intro current route hops res h
    by_cases hc : current ≠ src
    · have h1 : backtrack src visited fuel (visited current) (QueueJoin route current) (hops + 1) =
          some res := by
        simpa [backtrack, hc] using h
      have h2 := ih _ _ _ res h1
      rw [backtrack]
      simp only [if_pos hc]
      exact h2
    · simpa [backtrack, hc] using h

/-- More fuel does not change how `findPath` ends. -/
theorem findPath_fuel (g : GraphRep) (src dest : Vertex) (max : Int) (fuel : Nat)
    (r : Outcome) (h : findPath fuel g src dest max = some r) :
    findPath (fuel + 1) g src dest max = some r := by
  unfold findPath at h ⊢
  by_cases hsd : src = dest
  · simpa [hsd] using h
  · simp only [if_neg hsd] at h ⊢
    cases hb : bfsLoop g dest max fuel (QueueJoin newQueue src) (fun _ => -1) with
    | none => simp [hb] at h
    | some out =>
      rw [bfsLoop_fuel g dest max fuel _ _ out hb]
      rw [hb] at h
      cases out with
      | exhausted visited => exact h
      | found visited =>
        simp only [realPath] at h ⊢
        cases hbt : backtrack src visited fuel dest newQueue 0 with
        | none => simp [hbt] at h
        | some res =>
          rw [backtrack_fuel src visited fuel dest newQueue 0 res hbt]
          rw [hbt] at h
          exact h

theorem findPath_fuel_le (g : GraphRep) (src dest : Vertex) (max : Int) (fuel : Nat)
    (r : Outcome) (h : findPath fuel g src dest max = some r) :
    ∀ fuel1, fuel ≤ fuel1 → findPath fuel1 g src dest max = some r := by
  intro fuel1 hle
  induction fuel1 with
  | zero =>
    have e : fuel = 0 := by omega
    rw [← e]; exact h
  | succ n ih =>
    by_cases hn : fuel ≤ n
    · exact findPath_fuel g src dest max n r (ih hn)
    · have e : fuel = n + 1 := by omega
      rw [← e]; exact h

/-- C5: for valid vertices, whenever some walk from `src` to `dest` uses only
edges whose weight is nonzero and strictly less than `max`, `findPath` returns
a hop count `h > 0`; it does so with any fuel of at least `nV + 2`. -/
theorem findPath_finds (g : GraphRep) (src dest : Vertex) (max : Int)
    (hs : validV g src) (hd : validV g dest) (p : List Vertex)
    (hw : IsWalk g (delAdmits g max) src dest p) (fuel : Nat) (hfuel : g.nV + 2 ≤ fuel) :
    ∃ r, findPath fuel g src dest max = some (Outcome.returned r) ∧ 0 < r.hops := by
  have _ := hd
  have hw1 : IsWalk g (admits g max) src dest p :=
    ⟨hw.1, hw.2.1, hw.2.2.1, Linked_imp _ _ (fun a b h => delAdmits_admits g max a b h) p hw.2.2.2⟩
  obtain ⟨r, h1, h2, _⟩ := findPath_reaches g src dest max hs p hw1 fuel hfuel
  exact ⟨r, h1, h2⟩

theorem findPath_finds_witness :
    validV scenarioGraph 0 ∧ validV scenarioGraph 3 ∧
      IsWalk scenarioGraph (delAdmits scenarioGraph 10) 0 3 [0, 1, 2, 3] ∧
      scenarioGraph.nV + 2 ≤ 6 ∧
      ∃ r, findPath 6 scenarioGraph 0 3 10 = some (Outcome.returned r) ∧ 0 < r.hops :=
  ⟨by decide, by decide, by decide, by decide,
    findPath_finds scenarioGraph 0 3 10 (by decide) (by decide) [0, 1, 2, 3] (by decide) 6
      (by decide)⟩

/-- C3: for valid vertices the call of `findPath` ends (fuel `nV + 2` is
enough; it returns or leaves by the no-path exit), and whenever it returns
`h > 0`, with any fuel, the stores it performed are exactly
`path[h-1], ..., path[0]` (each index once, in this order), every other entry
of the buffer keeps its content, `path[0] = src` and `path[h-1] = dest`. -/
theorem findPath_endpoints (g : GraphRep) (src dest : Vertex) (max : Int)
    (hs : validV g src) (hd : validV g dest) :
    (∀ fuel : Nat, g.nV + 2 ≤ fuel → ∃ o, findPath fuel g src dest max = some o) ∧
      ∀ (fuel : Nat) (r : FindResult),
        findPath fuel g src dest max = some (Outcome.returned r) → 0 < r.hops →
        r.writes.map Prod.fst = ((List.range r.hops.toNat).map Int.ofNat).reverse ∧
          ∀ p : Int → Vertex, store p r.writes 0 = src ∧ store p r.writes (r.hops - 1) = dest ∧
            ∀ k : Int, (k < 0 ∨ r.hops ≤ k) → store p r.writes k = p k := by
  have _ := hd
  refine ⟨fun fuel hfuel => ?_, fun fuel r h hpos => findPath_stores fuel g src dest max r h hpos⟩
  obtain ⟨o, ho, _⟩ := findPath_ends g src dest max hs fuel hfuel
  exact ⟨o, ho⟩

theorem findPath_endpoints_witness :
    validV scenarioGraph 0 ∧ validV scenarioGraph 3 ∧
      findPath 6 scenarioGraph 0 3 10 =
        some (Outcome.returned
          { hops := 4, writes := [(3, 3), (2, 2), (1, 1), (0, 0)], graph := some scenarioGraph }) ∧
      [(3, 3), (2, 2), (1, 1), (0, 0)].map Prod.fst = ((List.range 4).map Int.ofNat).reverse ∧
      ∀ p : Int → Vertex, store p [(3, 3), (2, 2), (1, 1), (0, 0)] 0 = 0 ∧
        store p [(3, 3), (2, 2), (1, 1), (0, 0)] (4 - 1) = 3 ∧
        ∀ k : Int, (k < 0 ∨ 4 ≤ k) → store p [(3, 3), (2, 2), (1, 1), (0, 0)] k = p k :=
  ⟨by decide, by decide, rfl,
    (findPath_endpoints scenarioGraph 0 3 10 (by decide) (by decide)).2 6
      { hops := 4, writes := [(3, 3), (2, 2), (1, 1), (0, 0)], graph := some scenarioGraph }
      rfl (by decide)⟩

/-! ## The ceiling test of `del2.c` and the release of the graph -/

/-- A walk between two different vertices has a first edge. -/
theorem IsWalk_first_edge (g : GraphRep) (ok : Vertex → Vertex → Prop) (src dest : Vertex)
    (p : List Vertex) (hne : src ≠ dest) (hw : IsWalk g ok src dest p) :
    ∃ b, validV g b ∧ ok src b := by
  obtain ⟨hhead, hlast, hval, hl⟩ := hw
  cases p with
  | nil => simp at hhead
  | cons a rest =>
    simp only [List.head?_cons, Option.some.injEq] at hhead
    subst hhead
    cases rest with
    | nil =>
      simp only [List.getLast?_singleton, Option.some.injEq] at hlast
      exact absurd hlast hne
    | cons b rest1 =>
      exact ⟨b, hval b (List.mem_cons_of_mem _ (List.mem_cons_self _ _)), hl.1⟩

/-- C2 fails on the code: on the graph with the single edge `(0,1)` of weight
5, `findPath (g, 0, 1, 5, path)` returns 2 with `path = [0, 1]`, although the
weight of the edge from `path[0]` to `path[1]` is 5, which is not strictly less
than `max = 5` (line 175 of `del2.c` skips a child only when the weight is
greater than `max`; the test of `del.c` rejects this edge). -/
theorem findPath_takes_edge_at_ceiling :
    ((findPath 4 oneEdge 0 1 5).bind Outcome.result).map
        (fun r => (r.hops, r.path (fun _ => 0))) = some (2, [0, 1]) ∧
      oneEdge.edges 0 1 = 5 ∧ ¬ (oneEdge.edges 0 1 < 5) ∧ admits oneEdge 5 0 1 ∧
      ¬ delAdmits oneEdge 5 0 1 := by
  decide

/-- C1 fails on the code: on the graph of the scenario, with `max = 20`,
`findPath (g, 0, 3, 20, path)` returns 3 with `path = [0, 2, 3]`; the walk
`[0, 1, 2, 3]` uses only edges of nonzero weight strictly less than 20, and
every such walk from 0 to 3 has at least 4 vertices, so the minimum is 4 and
not 3. -/
theorem findPath_below_minimum :
    ((findPath 6 scenarioGraph 0 3 20).bind Outcome.result).map
        (fun r => (r.hops, r.path (fun _ => 0))) =
        some (3, [0, 2, 3]) ∧
      IsWalk scenarioGraph (delAdmits scenarioGraph 20) 0 3 [0, 1, 2, 3] ∧
      ∀ p : List Vertex, IsWalk scenarioGraph (delAdmits scenarioGraph 20) 0 3 p → 4 ≤ p.length := by
  refine ⟨by decide, by decide, ?_⟩
  intro p hw
  obtain ⟨hhead, hlast, hval, hl⟩ := hw
  match p, hhead, hlast, hval, hl with
  | [], hhead, _, _, _ => simp at hhead
  | [a], hhead, hlast, _, _ =>
    simp only [List.head?_cons, Option.some.injEq] at hhead
    simp only [List.getLast?_singleton, Option.some.injEq] at hlast
    rw [hhead] at hlast
    exact absurd hlast (by decide)
  | [a, b], hhead, hlast, _, hl =>
    simp only [List.head?_cons, Option.some.injEq] at hhead
    have hb : b = 3 := by simpa [List.getLast?] using hlast
    subst hhead; subst hb
    exact absurd hl.1 (by decide)
  | [a, b, c], hhead, hlast, hval, hl =>
    simp only [List.head?_cons, Option.some.injEq] at hhead
    have hc : c = 3 := by simpa [List.getLast?] using hlast
    subst hhead; subst hc
    have hb : b ∈ vertices scenarioGraph := (mem_vertices scenarioGraph b).mpr (hval b (by simp))
    have hall : ∀ b ∈ vertices scenarioGraph,
        ¬ (delAdmits scenarioGraph 20 0 b ∧ delAdmits scenarioGraph 20 b 3) := by decide
    exact absurd ⟨hl.1, hl.2.1⟩ (hall b hb)
  | _ :: _ :: _ :: _ :: _, _, _, _, _ => simp

/-- C4 fails on the code: on the graph of the scenario, with `max = 5`, no walk
from 0 to 3 uses only edges of nonzero weight strictly less than 5 (no edge of
the graph has such a weight), yet `findPath (g, 0, 3, 5, path)` returns 4 with
`path = [0, 1, 2, 3]` instead of 0. -/
theorem findPath_not_zero_at_ceiling :
    ((findPath 6 scenarioGraph 0 3 5).bind Outcome.result).map
        (fun r => (r.hops, r.path (fun _ => 0))) =
        some (4, [0, 1, 2, 3]) ∧
      ∀ p : List Vertex, ¬ IsWalk scenarioGraph (delAdmits scenarioGraph 5) 0 3 p := by
  refine ⟨by decide, ?_⟩
  intro p hw
  obtain ⟨b, hb, hok⟩ := IsWalk_first_edge scenarioGraph _ 0 3 p (by decide) hw
  have hall : ∀ b ∈ vertices scenarioGraph, ¬ delAdmits scenarioGraph 5 0 b := by decide
  exact hall b ((mem_vertices scenarioGraph b).mpr hb) hok

/-- C7 fails on the code: on the graph of two vertices without an edge,
`findPath (g, 0, 1, 10, path)` finds the queue empty and takes the no-path exit,
where line 187 of `del2.c` calls `dropGraph (g)`: the graph store is freed (and
the statements that follow have no defined behaviour).  When a path is found
(here on the graph with one edge) the graph is left in place. -/
theorem findPath_drops_graph :
    findPath 4 twoVertices 0 1 10 = some Outcome.released ∧
      ((findPath 4 oneEdge 0 1 10).bind Outcome.result).map
        (fun r => (r.hops, r.graph.isSome)) = some (2, true) :=
  ⟨rfl, by decide⟩

/-! ## `newGraph`, one `insertEdge`, and the round trip with `removeEdge` -/

/-- C12, as stated, fails on the code: `newGraph (2)` has `n > 0`, but when
`calloc` has no memory for the second row the assertion of line 76 fails and no
graph is returned; likewise `newGraph (1)` when `malloc` returns `NULL` for the
record (line 69). -/
theorem newGraph_allocation_fails :
    (0 : Int) < 2 ∧ (newGraph Heap.oneRow 2).isNone = true ∧
      (newGraph { record := false, table := true, row := fun _ => true } 1).isNone = true := by
  decide

/-- C12 (amended): `newGraph (n)` returns a graph exactly when `n > 0` and
every allocation it requests succeeds (the record, the table of rows, each of
the `n` rows); the graph it returns has `n` vertices, edge count 0 and a matrix
whose entries are all 0; for `n <= 0` the assertion fails whatever the allocator
answers. -/
theorem newGraph_spec (heap : Heap) (n : Int) :
    ((∃ g, newGraph heap n = some g) ↔
        (0 < n ∧ heap.record = true ∧ heap.table = true ∧
          ∀ v : Nat, v < n.toNat → heap.row v = true)) ∧
      (∀ g, newGraph heap n = some g →
        (g.nV : Int) = n ∧ g.nE = 0 ∧ ∀ v w : Vertex, g.edges v w = 0) ∧
      (n ≤ 0 → newGraph heap n = none) := by
  refine ⟨⟨?_, ?_⟩, ?_, ?_⟩
  · rintro ⟨g, hg⟩
    unfold newGraph at hg
    split_ifs at hg with hn hall
    exact ⟨hn, hall.1, hall.2.1, fun v hv => hall.2.2 v (List.mem_range.mpr hv)⟩
  · rintro ⟨hn, h1, h2, h3⟩
    have hall : heap.record = true ∧ heap.table = true ∧
        ∀ v ∈ List.range n.toNat, heap.row v = true :=
      ⟨h1, h2, fun v hv => h3 v (List.mem_range.mp hv)⟩
    exact ⟨_, by unfold newGraph; rw [if_pos hn, if_pos hall]⟩
  · intro g hg
    obtain ⟨_, h1, h2, h3⟩ := newGraph_some heap n g hg
    exact ⟨h1, h2, fun v w => by rw [h3]⟩
  · intro hn
    unfold newGraph
    exact if_neg (not_lt.mpr hn)

/-- C13, as stated, fails on the code when the edge count is `INT_MAX`: in the
state reached by `newGraph (2)` and 2147483647 calls `insertEdge (g, 0, 1, 0)`
no edge joins 0 and 1 and the count is 2147483647; `insertEdge (g, 0, 1, 5)`
then stores 5 in both cells and leaves the count at `-2147483648`, not at one
more than before. -/
theorem insertEdge_at_int_max :
    build Heap.plenty 2 (List.replicate 2147483647 (Op.insert 0 1 0)) = some fullCount ∧
      validV fullCount 0 ∧ validV fullCount 1 ∧ fullCount.edges 0 1 = 0 ∧
      fullCount.edges 1 0 = 0 ∧ fullCount.nE = 2147483647 ∧
      (insertEdge fullCount 0 1 5).map (fun g1 => (g1.edges 0 1, g1.edges 1 0, g1.nE)) =
        some (5, 5, -2147483648) :=
  ⟨fullCount_built, by decide, by decide, rfl, rfl, rfl, by decide⟩

/-- C13 (amended): for a graph whose edge count is below `INT_MAX` and valid
vertices `v`, `w` that no edge joins (not both cells nonzero),
`insertEdge (g, v, w, wt)` returns, sets `edges[v][w]` and `edges[w][v]` to
`wt`, adds one to the edge count and leaves the vertex count and every other
entry of the matrix as they were. -/
theorem insertEdge_fresh (g : GraphRep) (v w : Vertex) (wt : Int)
    (hv : validV g v) (hw : validV g w)
    (hno : ¬ (g.edges v w ≠ 0 ∧ g.edges w v ≠ 0)) (hhi : g.nE < 2147483647) :
    ∃ g1, insertEdge g v w wt = some g1 ∧ g1.edges v w = wt ∧ g1.edges w v = wt ∧
      g1.nE = g.nE + 1 ∧ g1.nV = g.nV ∧
      ∀ a b : Vertex, ¬ (a = v ∧ b = w) → ¬ (a = w ∧ b = v) → g1.edges a b = g.edges a b := by
  obtain ⟨g1, hins, hnV, hnE, hed⟩ := insertEdge_stores g v w wt hv hw hno
  have hlo := g.nE_int.1
  refine ⟨g1, hins, by rw [hed]; exact setCell_pair_left g.edges v w wt,
    by rw [hed]; exact setCell_pair_right g.edges v w wt,
    by rw [hnE]; exact wrapInt_of_int _ (by omega) (by omega), hnV, ?_⟩
  intro a b h1 h2
  rw [hed]
  simp only [setCell, if_neg h1, if_neg h2]

theorem insertEdge_fresh_witness :
    validV twoVertices 0 ∧ validV twoVertices 1 ∧
      ¬ (twoVertices.edges 0 1 ≠ 0 ∧ twoVertices.edges 1 0 ≠ 0) ∧
      twoVertices.nE < 2147483647 ∧
      ∃ g1, insertEdge twoVertices 0 1 5 = some g1 ∧ g1.edges 0 1 = 5 ∧ g1.edges 1 0 = 5 ∧
        g1.nE = twoVertices.nE + 1 ∧ g1.nV = twoVertices.nV ∧
        ∀ a b : Vertex, ¬ (a = 0 ∧ b = 1) → ¬ (a = 1 ∧ b = 0) →
          g1.edges a b = twoVertices.edges a b :=
  ⟨by decide, by decide, by decide, by decide,
    insertEdge_fresh twoVertices 0 1 5 (by decide) (by decide) (by decide) (by decide)⟩

/-- Zeroing the two cells that were just set gives back a matrix in which both
were zero. -/
theorem setCell_undo (m : Vertex → Vertex → Int) (v w : Vertex) (x : Int)
    (h1 : m v w = 0) (h2 : m w v = 0) :
    setCell (setCell (setCell (setCell m v w x) w v x) v w 0) w v 0 = m := by
  funext a b
  simp only [setCell]
  by_cases e1 : a = w ∧ b = v
  · rw [if_pos e1, e1.1, e1.2, h2]
  · rw [if_neg e1]
    by_cases e2 : a = v ∧ b = w
    · rw [if_pos e2, e2.1, e2.2, h1]
    · rw [if_neg e2, if_neg e1, if_neg e2]

/-- C20, as stated, fails on the code for the weight 0: on the empty graph of
two vertices, `insertEdge (g, 0, 1, 0)` then `removeEdge (g, 0, 1)` leaves the
matrix as it was but the edge count at 1 instead of 0 (the insertion counts,
the removal finds both cells zero and returns at once). -/
theorem insert_remove_zero_weight :
    ((insertEdge twoVertices 0 1 0).bind (fun g1 => removeEdge g1 0 1)).map
        (fun g2 => (g2.nE, g2.edges 0 1, g2.edges 1 0)) = some (1, 0, 0) ∧
      twoVertices.nE = 0 := by
  decide

/-- C20 (amended): for valid vertices `v`, `w` with no edge between them (both
cells zero) and a weight `wt` other than zero, `insertEdge (g, v, w, wt)`
followed by `removeEdge (g, v, w)` returns the graph exactly as it was: the same
vertex count, edge count and matrix (the increment and the decrement of the
edge count cancel, also when the increment wraps around). -/
theorem insert_remove_round_trip (g : GraphRep) (v w : Vertex) (wt : Int)
    (hv : validV g v) (hw : validV g w) (h1 : g.edges v w = 0) (h2 : g.edges w v = 0)
    (hwt : wt ≠ 0) :
    (insertEdge g v w wt).bind (fun g1 => removeEdge g1 v w) = some g := by
  have hno : ¬ (g.edges v w ≠ 0 ∧ g.edges w v ≠ 0) := fun h => h.1 h1
  obtain ⟨g1, hins, hnV, hnE, hed⟩ := insertEdge_stores g v w wt hv hw hno
  have hv1 : validV g1 v := by unfold validV at hv ⊢; rw [hnV]; exact hv
  have hw1 : validV g1 w := by unfold validV at hw ⊢; rw [hnV]; exact hw
  have hset : ¬ (g1.edges v w = 0 ∧ g1.edges w v = 0) := by
    rw [hed, setCell_pair_left, setCell_pair_right]
    exact fun h => hwt h.1
  obtain ⟨g2, hrem, hnV2, hnE2, hed2⟩ := removeEdge_stores g1 v w hv1 hw1 hset
  rw [hins, Option.some_bind, hrem]
  congr 1
  apply GraphRep_eq
  · rw [hnV2, hnV]
  · rw [hnE2, hnE]
    have hint := g.nE_int
    unfold wrapInt
    omega
  · rw [hed2, hed]
    exact setCell_undo g.edges v w wt h1 h2

theorem insert_remove_round_trip_witness :
    validV twoVertices 0 ∧ validV twoVertices 1 ∧ twoVertices.edges 0 1 = 0 ∧
      twoVertices.edges 1 0 = 0 ∧ (5 : Int) ≠ 0 ∧
      (insertEdge twoVertices 0 1 5).bind (fun g1 => removeEdge g1 0 1) = some twoVertices :=
  ⟨by decide, by decide, rfl, rfl, by decide,
    insert_remove_round_trip twoVertices 0 1 5 (by decide) (by decide) rfl rfl (by decide)⟩

/-! ## Vertices out of range -/

/-- C14, as stated, fails on the code: on the graph of two vertices, the
vertex 7 is out of range, yet `findPath (g, 7, 7, 10, path)` does not abort: it
stores `path[0] = 7` and returns 1.  The same holds for the vertex `-1`. -/
theorem findPath_unchecked_vertex :
    ¬ validV twoVertices 7 ∧ ¬ validV twoVertices (-1) ∧
      ((findPath 0 twoVertices 7 7 10).bind Outcome.result).map
        (fun r => (r.hops, r.writes)) = some (1, [(0, 7)]) ∧
      ((findPath 0 twoVertices (-1) (-1) 10).bind Outcome.result).map
        (fun r => (r.hops, r.writes)) = some (1, [(0, -1)]) := by
  decide

/-- C14 (amended): a vertex out of range is a fatal precondition violation for
`insertEdge` and `removeEdge`, not for `findPath`, which asserts only that the
graph pointer is not `NULL`: for every vertex `v` outside `[0, nV)` and every
`max`, `findPath (g, v, v, max, path)` does not abort but stores `path[0] = v`
and returns 1, while `insertEdge` and `removeEdge` abort when `v` is one of
their vertices. -/
theorem findPath_out_of_range (g : GraphRep) (v w : Vertex) (max wt : Int) (fuel : Nat)
    (hv : ¬ validV g v) :
    findPath fuel g v v max =
        some (Outcome.returned { hops := 1, writes := [(0, v)], graph := some g }) ∧
      insertEdge g v w wt = none ∧ insertEdge g w v wt = none ∧
      removeEdge g v w = none ∧ removeEdge g w v = none := by
  refine ⟨by simp [findPath], ?_, ?_, ?_, ?_⟩
  · simp [insertEdge, hv]
  · simp [insertEdge, hv]
  · simp [removeEdge, hv]
  · simp [removeEdge, hv]

theorem findPath_out_of_range_witness :
    ¬ validV twoVertices 7 ∧
      findPath 0 twoVertices 7 7 10 =
        some (Outcome.returned { hops := 1, writes := [(0, 7)], graph := some twoVertices }) ∧
      insertEdge twoVertices 7 0 5 = none ∧ insertEdge twoVertices 0 7 5 = none ∧
      removeEdge twoVertices 7 0 = none ∧ removeEdge twoVertices 0 7 = none :=
  ⟨by decide, findPath_out_of_range twoVertices 7 0 10 5 0 (by decide)⟩

/-! ## The edge count -/

/-- Changing a predicate from false to true at one element of a list without
repetition, and nowhere else on the list, adds one to the number of elements
that satisfy it. -/
theorem filter_length_flip_on {α : Type} (l : List α) (p q : α → Prop) [DecidablePred p]
    [DecidablePred q] (c : α) (hl : l.Nodup) (hc : c ∈ l) (hp : ¬ p c) (hq : q c)
    (hpq : ∀ x ∈ l, x ≠ c → (p x ↔ q x)) :
    (l.filter (fun x => decide (q x))).length = (l.filter (fun x => decide (p x))).length + 1 := by
  induction l with
  | nil => cases hc
  | cons a l ih =>
    have hnd := List.nodup_cons.mp hl
    have hpq1 : ∀ x ∈ l, x ≠ c → (p x ↔ q x) := fun x hx => hpq x (List.mem_cons_of_mem _ hx)
    by_cases hac : a = c
    · subst hac
      have hsame : l.filter (fun x => decide (q x)) = l.filter (fun x => decide (p x)) := by
        apply List.filter_congr
        intro x hx
        have hxa : x ≠ a := fun h => hnd.1 (h ▸ hx)
        simp [hpq1 x hx hxa]
      simp [List.filter_cons, hp, hq, hsame]
    · have hcl : c ∈ l := by
        rcases List.mem_cons.mp hc with h | h
        · exact absurd h.symm hac
        · exact h
      have := ih hnd.2 hcl hpq1
      have hiff := hpq a (List.mem_cons_self _ _) hac
      by_cases hpa : p a
      · have hqa : q a := hiff.mp hpa
        simp [List.filter_cons, hpa, hqa, this]
      · have hqa : ¬ q a := fun h => hpa (hiff.mpr h)
        simp [List.filter_cons, hpa, hqa, this]

theorem pairs_nodup (g : GraphRep) : (pairs g).Nodup :=
  List.Nodup.filter _ (List.Nodup.product (vertices_nodup g) (vertices_nodup g))

theorem mem_pairs (g : GraphRep) (x : Vertex × Vertex) :
    x ∈ pairs g ↔ validV g x.1 ∧ validV g x.2 ∧ x.1 ≤ x.2 := by
  obtain ⟨a, b⟩ := x
  simp only [pairs, List.mem_filter, List.pair_mem_product, mem_vertices, decide_eq_true_eq,
    and_assoc]

theorem normPair_mem (g : GraphRep) (v w : Vertex) (hv : validV g v) (hw : validV g w) :
    normPair v w ∈ pairs g := by
  rw [mem_pairs]
  unfold normPair
  by_cases h : v ≤ w
  · rw [if_pos h]; exact ⟨hv, hw, h⟩
  · rw [if_neg h]; exact ⟨hw, hv, le_of_lt (not_le.mp h)⟩

/-- Both cells of the pair were just set: the entry of the pair is the value
that was stored. -/
theorem setCell_normPair (m : Vertex → Vertex → Int) (v w : Vertex) (x : Int) :
    setCell (setCell m v w x) w v x (normPair v w).1 (normPair v w).2 = x := by
  unfold normPair
  by_cases h : v ≤ w
  · rw [if_pos h]; exact setCell_pair_left m v w x
  · rw [if_neg h]; exact setCell_pair_right m v w x

/-- The two stores do not touch the entry of any other unordered pair. -/
theorem setCell_other_pair (g : GraphRep) (m : Vertex → Vertex → Int) (v w : Vertex) (x : Int)
    (y : Vertex × Vertex) (hy : y ∈ pairs g) (hne : y ≠ normPair v w) :
    setCell (setCell m v w x) w v x y.1 y.2 = m y.1 y.2 := by
  obtain ⟨a, b⟩ := y
  have hab : a ≤ b := ((mem_pairs g (a, b)).mp hy).2.2
  have h1 : ¬ (a = w ∧ b = v) := by
    rintro ⟨rfl, rfl⟩
    apply hne
    unfold normPair
    by_cases h : b ≤ a
    · have e : a = b := le_antisymm hab h
      rw [if_pos h, e]
    · rw [if_neg h]
  have h2 : ¬ (a = v ∧ b = w) := by
    rintro ⟨rfl, rfl⟩
    apply hne
    unfold normPair
    rw [if_pos hab]
  simp only [setCell, if_neg h1, if_neg h2]

theorem pairs_congr (g g1 : GraphRep) (h : g1.nV = g.nV) : pairs g1 = pairs g := by
  unfold pairs vertices
  rw [h]

theorem edgeCount_setCell (g g1 : GraphRep) (v w : Vertex) (x : Int)
    (hnV : g1.nV = g.nV) (hed : g1.edges = setCell (setCell g.edges v w x) w v x)
    (hv : validV g v) (hw : validV g w) (h0 : g.edges v w = 0) (h1 : g.edges w v = 0)
    (hx : x ≠ 0) :
    edgeCount g1 = edgeCount g + 1 := by
  unfold edgeCount
  rw [pairs_congr g g1 hnV, hed]
  refine filter_length_flip_on (pairs g) (fun p => g.edges p.1 p.2 ≠ 0)
    (fun p => setCell (setCell g.edges v w x) w v x p.1 p.2 ≠ 0) (normPair v w) (pairs_nodup g)
    (normPair_mem g v w hv hw) ?_ ?_ ?_
  · beta_reduce
    unfold normPair
    by_cases h : v ≤ w
    · rw [if_pos h]; exact fun hne => hne h0
    · rw [if_neg h]; exact fun hne => hne h1
  · beta_reduce
    rw [setCell_normPair]
    exact hx
  · intro y hy hne
    beta_reduce
    rw [setCell_other_pair g g.edges v w x y hy hne]

theorem edgeCount_clearCell (g g1 : GraphRep) (v w : Vertex)
    (hnV : g1.nV = g.nV) (hed : g1.edges = setCell (setCell g.edges v w 0) w v 0)
    (hv : validV g v) (hw : validV g w) (h0 : g.edges v w ≠ 0) (h1 : g.edges w v ≠ 0) :
    edgeCount g = edgeCount g1 + 1 := by
  unfold edgeCount
  rw [pairs_congr g g1 hnV, hed]
  refine filter_length_flip_on (pairs g)
    (fun p => setCell (setCell g.edges v w 0) w v 0 p.1 p.2 ≠ 0)
    (fun p => g.edges p.1 p.2 ≠ 0) (normPair v w) (pairs_nodup g)
    (normPair_mem g v w hv hw) ?_ ?_ ?_
  · beta_reduce
    rw [setCell_normPair]
    exact fun hne => hne rfl
  · beta_reduce
    unfold normPair
    by_cases h : v ≤ w
    · rw [if_pos h]; exact h0
    · rw [if_neg h]; exact h1
  · intro y hy hne
    beta_reduce
    rw [setCell_other_pair g g.edges v w 0 y hy hne]

/-- `insertEdge` with a nonzero weight keeps the edge count equal, as a 32-bit
`int`, to the number of unordered pairs with a nonzero entry. -/
theorem insertEdge_count (g g1 : GraphRep) (v w : Vertex) (wt : Int)
    (hsym : ∀ a b, g.edges a b = g.edges b a) (hcnt : g.nE = wrapInt (edgeCount g : Int))
    (hwt : wt ≠ 0) (h : insertEdge g v w wt = some g1) :
    g1.nE = wrapInt (edgeCount g1 : Int) := by
  by_cases hval : validV g v ∧ validV g w
  · by_cases hboth : g.edges v w ≠ 0 ∧ g.edges w v ≠ 0
    · simp only [insertEdge, if_pos hval, if_pos hboth, Option.some.injEq] at h
      rw [← h]; exact hcnt
    · obtain ⟨g2, hins, hnV, hnE, hed⟩ := insertEdge_stores g v w wt hval.1 hval.2 hboth
      rw [hins, Option.some.injEq] at h
      subst h
      have h0 : g.edges v w = 0 := by
        by_contra hne
        exact hboth ⟨hne, by rw [hsym w v]; exact hne⟩
      have h1 : g.edges w v = 0 := by rw [hsym w v]; exact h0
      rw [hnE, edgeCount_setCell g g2 v w wt hnV hed hval.1 hval.2 h0 h1 hwt, hcnt]
      push_cast
      exact wrapInt_add _ 1
  · simp [insertEdge, hval] at h

theorem removeEdge_count (g g1 : GraphRep) (v w : Vertex)
    (hsym : ∀ a b, g.edges a b = g.edges b a) (hcnt : g.nE = wrapInt (edgeCount g : Int))
    (h : removeEdge g v w = some g1) : g1.nE = wrapInt (edgeCount g1 : Int) := by
  by_cases hval : validV g v ∧ validV g w
  · by_cases hboth : g.edges v w = 0 ∧ g.edges w v = 0
    · simp only [removeEdge, if_pos hval, if_pos hboth, Option.some.injEq] at h
      rw [← h]; exact hcnt
    · obtain ⟨g2, hrem, hnV, hnE, hed⟩ := removeEdge_stores g v w hval.1 hval.2 hboth
      rw [hrem, Option.some.injEq] at h
      subst h
      have h0 : g.edges v w ≠ 0 := by
        intro h0
        exact hboth ⟨h0, by rw [hsym w v]; exact h0⟩
      have h1 : g.edges w v ≠ 0 := by rw [hsym w v]; exact h0
      have hc := congrArg (fun k : Nat => (k : Int))
        (edgeCount_clearCell g g2 v w hnV hed hval.1 hval.2 h0 h1)
      simp only [Nat.cast_add, Nat.cast_one] at hc
      rw [hnE, hcnt, hc, sub_eq_add_neg, wrapInt_add]
      congr 1
      omega
  · simp [removeEdge, hval] at h

theorem runOps_count (ops : List Op) : ∀ (g g1 : GraphRep),
    (∀ a b, g.edges a b = g.edges b a) → g.nE = wrapInt (edgeCount g : Int) →
    (∀ op ∈ ops, Op.nonzero op) → runOps g ops = some g1 →
    g1.nE = wrapInt (edgeCount g1 : Int) := by
  induction ops with
  | nil => intro g g1 _ hcnt _ h; cases h; exact hcnt
  | cons op ops ih =>
    intro g g1 hsym hcnt hnz h
    simp only [runOps] at h
    cases hop : applyOp g op with
    | none => simp [hop] at h
    | some g2 =>
      rw [hop] at h
      have hnz1 : ∀ o ∈ ops, Op.nonzero o := fun o ho => hnz o (List.mem_cons_of_mem _ ho)
      have hop0 := hnz op (List.mem_cons_self _ _)
      cases op with
      | insert v w wt =>
        exact ih g2 g1 (insertEdge_symm g g2 v w wt hsym hop)
          (insertEdge_count g g2 v w wt hsym hcnt hop0 hop) hnz1 h
      | remove v w =>
        exact ih g2 g1 (removeEdge_symm g g2 v w hsym hop)
          (removeEdge_count g g2 v w hsym hcnt hop) hnz1 h

theorem edgeCount_zero (g : GraphRep) (h : ∀ a b, g.edges a b = 0) : edgeCount g = 0 := by
  unfold edgeCount
  rw [List.length_eq_zero, List.filter_eq_nil_iff]
  intro x _
  simp [h x.1 x.2]

/-- In every graph built with nonzero weights the edge count is the number of
unordered pairs with a nonzero entry, reduced to a 32-bit `int`. -/
theorem build_edge_count_wrap (heap : Heap) (n : Int) (ops : List Op) (g : GraphRep)
    (h : build heap n ops = some g) (hnz : ∀ op ∈ ops, Op.nonzero op) :
    g.nE = wrapInt (edgeCount g : Int) := by
  unfold build at h
  cases h0 : newGraph heap n with
  | none => simp [h0] at h
  | some g0 =>
    rw [h0, Option.some_bind] at h
    obtain ⟨_, _, hE, hed⟩ := newGraph_some heap n g0 h0
    refine runOps_count ops g0 g (fun a b => by rw [hed]) ?_ hnz h
    rw [hE, edgeCount_zero g0 (fun a b => by rw [hed])]
    rfl

/-! ### More than `INT_MAX` edges -/

/-- Inserting edges of weight 1 for a list of different unordered pairs that
have no edge yet succeeds and adds the length of the list to the number of
pairs with a nonzero entry. -/
theorem runOps_fresh_pairs : ∀ (L : List (Vertex × Vertex)) (g : GraphRep), L.Nodup →
    (∀ p ∈ L, p ∈ pairs g ∧ g.edges p.1 p.2 = 0) → (∀ a b, g.edges a b = g.edges b a) →
    ∃ g1, runOps g (L.map (fun p => Op.insert p.1 p.2 1)) = some g1 ∧
      edgeCount g1 = edgeCount g + L.length := by
  intro L
  induction L with
  | nil => intro g _ _ _; exact ⟨g, rfl, rfl⟩
  | cons p L ih =>
    intro g hnd hfresh hsym
    obtain ⟨hpm, hp0⟩ := hfresh p (List.mem_cons_self _ _)
    obtain ⟨hv, hw, hle⟩ := (mem_pairs g p).mp hpm
    have hp1 : g.edges p.2 p.1 = 0 := by rw [hsym p.2 p.1]; exact hp0
    have hno : ¬ (g.edges p.1 p.2 ≠ 0 ∧ g.edges p.2 p.1 ≠ 0) := fun h => h.1 hp0
    obtain ⟨g1, hins, hnV, _, hed⟩ := insertEdge_stores g p.1 p.2 1 hv hw hno
    have hcount := edgeCount_setCell g g1 p.1 p.2 1 hnV hed hv hw hp0 hp1 (by decide)
    have hnorm : normPair p.1 p.2 = p := by
      unfold normPair
      rw [if_pos hle]
    have hnd1 := List.nodup_cons.mp hnd
    have hfresh1 : ∀ q ∈ L, q ∈ pairs g1 ∧ g1.edges q.1 q.2 = 0 := by
      intro q hq
      obtain ⟨hqm, hq0⟩ := hfresh q (List.mem_cons_of_mem _ hq)
      have hqp : q ≠ normPair p.1 p.2 := by
        rw [hnorm]
        intro e
        exact hnd1.1 (e ▸ hq)
      refine ⟨by rw [pairs_congr g g1 hnV]; exact hqm, ?_⟩
      rw [hed, setCell_other_pair g g.edges p.1 p.2 1 q hqm hqp]
      exact hq0
    obtain ⟨g2, hrun, hcount2⟩ := ih g1 hnd1.2 hfresh1
      (insertEdge_symm g g1 p.1 p.2 1 hsym hins)
    refine ⟨g2, ?_, ?_⟩
    · simp only [List.map_cons, runOps, applyOp, hins, Option.some_bind]
      exact hrun
    · rw [hcount2, hcount, List.length_cons]
      omega

theorem manyPairs_length : manyPairs.length = 2147483648 := by
  unfold manyPairs
  show (((List.range 32768).map Int.ofNat) ×ˢ
    ((List.range 65536).map (fun (i : Nat) => Int.ofNat (i + 32768)))).length = 2147483648
  rw [List.length_product, List.length_map, List.length_map, List.length_range,
    List.length_range]

theorem manyPairs_nodup : manyPairs.Nodup := by
  unfold manyPairs
  apply List.Nodup.product
  · exact List.Nodup.map Int.ofNat_injective (List.nodup_range _)
  · refine List.Nodup.map ?_ (List.nodup_range _)
    intro i j hij
    have := Int.ofNat_injective hij
    omega

theorem manyPairs_mem (g : GraphRep) (hg : g.nV = 98304) (p : Vertex × Vertex)
    (hp : p ∈ manyPairs) : p ∈ pairs g := by
  obtain ⟨a, b⟩ := p
  unfold manyPairs at hp
  rw [List.pair_mem_product, List.mem_map, List.mem_map] at hp
  obtain ⟨⟨i, hi, rfl⟩, ⟨j, hj, rfl⟩⟩ := hp
  rw [List.mem_range] at hi hj
  rw [mem_pairs]
  unfold validV
  rw [hg]
  refine ⟨⟨Int.ofNat_nonneg _, ?_⟩, ⟨Int.ofNat_nonneg _, ?_⟩, ?_⟩
  · show (Int.ofNat i : Int) < ((98304 : Nat) : Int)
    exact Int.ofNat_lt.mpr (by omega)
  · show (Int.ofNat (j + 32768) : Int) < ((98304 : Nat) : Int)
    exact Int.ofNat_lt.mpr (by omega)
  · show (Int.ofNat i : Int) ≤ Int.ofNat (j + 32768)
    exact Int.ofNat_le.mpr (by omega)

/-- C11, as stated, fails on the code in two ways.  For the weight 0: after
`newGraph (2)` and `insertEdge (g, 0, 1, 0)` the edge count is 1 while no
unordered pair of vertices has a nonzero entry.  For a count beyond `INT_MAX`:
on `newGraph (98304)`, the `2^31` calls `insertEdge (g, a, b, 1)` for `a` in
`[0, 32768)` and `b` in `[32768, 98304)` all have a nonzero weight and leave
2147483648 unordered pairs with a nonzero entry, while the 32-bit edge count
has wrapped around to `-2147483648`. -/
theorem edge_count_fails :
    (build Heap.plenty 2 [Op.insert 0 1 0]).map (fun g => (g.nE, edgeCount g)) = some (1, 0) ∧
      (∀ op ∈ manyEdges, Op.nonzero op) ∧
      ∃ g, build Heap.plenty 98304 manyEdges = some g ∧ edgeCount g = 2147483648 ∧
        g.nE = -2147483648 := by
  have hnz : ∀ op ∈ manyEdges, Op.nonzero op := by
    intro op hop
    unfold manyEdges at hop
    rw [List.mem_map] at hop
    obtain ⟨p, _, rfl⟩ := hop
    show (1 : Int) ≠ 0
    decide
  refine ⟨by decide, hnz, ?_⟩
  have hall : Heap.plenty.record = true ∧ Heap.plenty.table = true ∧
      ∀ v ∈ List.range (98304 : Int).toNat, Heap.plenty.row v = true :=
    ⟨rfl, rfl, fun _ _ => rfl⟩
  obtain ⟨g0, h0⟩ : ∃ g0, newGraph Heap.plenty 98304 = some g0 :=
    ⟨_, by unfold newGraph; rw [if_pos (by decide), if_pos hall]⟩
  obtain ⟨_, hnV, _, hed⟩ := newGraph_some Heap.plenty 98304 g0 h0
  have hnV0 : g0.nV = 98304 := by
    have : ((g0.nV : Nat) : Int) = ((98304 : Nat) : Int) := hnV
    exact Int.ofNat_injective this
  have hzero : ∀ a b, g0.edges a b = 0 := fun a b => by rw [hed]
  obtain ⟨g1, hrun, hcount⟩ := runOps_fresh_pairs manyPairs g0 manyPairs_nodup
    (fun p hp => ⟨manyPairs_mem g0 hnV0 p hp, hzero p.1 p.2⟩)
    (fun a b => by rw [hzero a b, hzero b a])
  have hbuild : build Heap.plenty 98304 manyEdges = some g1 := by
    unfold build manyEdges
    rw [h0, Option.some_bind]
    exact hrun
  have hc : edgeCount g1 = 2147483648 := by
    rw [hcount, edgeCount_zero g0 hzero, manyPairs_length]
  refine ⟨g1, hbuild, hc, ?_⟩
  rw [build_edge_count_wrap Heap.plenty 98304 manyEdges g1 hbuild hnz, hc]
  decide

/-- C11 (amended): in every graph obtained from `newGraph (n)` by a sequence of
`removeEdge` calls and of `insertEdge` calls whose weight is not zero, all with
valid vertices (`v = w` allowed), the edge count `nE` equals the number of
unordered pairs of vertices whose matrix entry is nonzero, as long as that
number is at most `INT_MAX`. -/
theorem build_edge_count (heap : Heap) (n : Int) (ops : List Op) (g : GraphRep)
    (h : build heap n ops = some g) (hnz : ∀ op ∈ ops, Op.nonzero op)
    (hmax : edgeCount g ≤ 2147483647) :
    g.nE = (edgeCount g : Int) := by
  rw [build_edge_count_wrap heap n ops g h hnz]
  exact wrapInt_of_int _ (by omega) (by omega)

theorem build_edge_count_witness :
    build Heap.plenty 4 [Op.insert 0 1 5, Op.insert 1 2 5, Op.insert 0 2 20, Op.insert 2 3 5] =
        some scenarioGraph ∧
      (∀ op ∈ [Op.insert 0 1 5, Op.insert 1 2 5, Op.insert 0 2 20, Op.insert 2 3 5],
        Op.nonzero op) ∧
      edgeCount scenarioGraph ≤ 2147483647 ∧
      scenarioGraph.nE = (edgeCount scenarioGraph : Int) :=
  ⟨rfl, by decide, by decide,
    build_edge_count Heap.plenty 4
      [Op.insert 0 1 5, Op.insert 1 2 5, Op.insert 0 2 20, Op.insert 2 3 5]
      scenarioGraph rfl (by decide) (by decide)⟩

/-! ## Weights that are not negative and a ceiling of zero or less -/

theorem setCell_nonneg (m : Vertex → Vertex → Int) (i j : Vertex) (x : Int) (hx : 0 ≤ x)
    (hm : ∀ a b, 0 ≤ m a b) (a b : Vertex) : 0 ≤ setCell m i j x a b := by
  unfold setCell
  split_ifs
  · exact hx
  · exact hm a b

theorem runOps_nonneg (ops : List Op) : ∀ (g g1 : GraphRep),
    (∀ a b, 0 ≤ g.edges a b) → (∀ op ∈ ops, Op.nonneg op) → runOps g ops = some g1 →
    ∀ a b, 0 ≤ g1.edges a b := by
  induction ops with
  | nil => intro g g1 hg _ h; cases h; exact hg
  | cons op ops ih =>
    intro g g1 hg hnn h
    simp only [runOps] at h
    cases hop : applyOp g op with
    | none => simp [hop] at h
    | some g2 =>
      rw [hop] at h
      refine ih g2 g1 ?_ (fun o ho => hnn o (List.mem_cons_of_mem _ ho)) h
      have hop0 := hnn op (List.mem_cons_self _ _)
      cases op with
      | insert v w wt =>
        simp only [applyOp, insertEdge] at hop
        split_ifs at hop
        · cases hop; exact hg
        · cases hop
          exact fun a b => setCell_nonneg _ w v wt hop0 (setCell_nonneg _ v w wt hop0 hg) a b
      | remove v w =>
        simp only [applyOp, removeEdge] at hop
        split_ifs at hop
        · cases hop; exact hg
        · cases hop
          exact fun a b => setCell_nonneg _ w v 0 (le_refl _)
            (setCell_nonneg _ v w 0 (le_refl _) hg) a b

/-- A scan in which the edge test accepts no child leaves the queue and
`visited` as they were. -/
theorem scanChildren_none (g : GraphRep) (max : Int) (curr : Vertex) :
    ∀ (cs : List Vertex) (Q : Queue) (visited : Vertex → Int),
      (∀ c ∈ cs, ¬ admits g max curr c) →
      scanChildren g max curr cs Q visited = (Q, visited) := by
  intro cs
  induction cs with
  | nil => intro Q visited _; rfl
  | cons c cs ih =>
    intro Q visited h
    have hc := h c (List.mem_cons_self _ _)
    have hskip : g.edges curr c = 0 ∨ g.edges curr c > max ∨ visited c ≠ -1 := by
      unfold admits at hc
      rcases not_not.mp hc with h0 | h1
      · exact Or.inl h0
      · exact Or.inr (Or.inl h1)
    simp only [scanChildren, if_pos hskip]
    exact ih Q visited (fun c1 h1 => h c1 (List.mem_cons_of_mem _ h1))

/-- When the edge test accepts no edge out of `src`, the loop of a search for
another vertex ends with the queue empty after `src` alone has left it, and
no `visited` entry has been set. -/
theorem bfsLoop_no_edge (g : GraphRep) (src dest : Vertex) (max : Int) (hne : src ≠ dest)
    (hno : ∀ c, validV g c → ¬ admits g max src c) (fuel : Nat) (hfuel : 2 ≤ fuel) :
    bfsLoop g dest max fuel (QueueJoin newQueue src) (fun _ => -1) =
      some (BfsOutcome.exhausted (fun _ => -1)) := by
  obtain ⟨f, rfl⟩ : ∃ f, fuel = f + 2 := ⟨fuel - 2, by omega⟩
  have hscan := scanChildren_none g max src (vertices g) [] (fun _ => -1)
    (fun c hc => hno c ((mem_vertices g c).mp hc))
  simp only [bfsLoop, QueueJoin, newQueue, List.nil_append, QueueLeave, if_neg hne, hscan]

/-- When the edge test accepts no edge out of `src`, a search for another
vertex leaves by the no-path exit. -/
theorem findPath_no_edge (g : GraphRep) (src dest : Vertex) (max : Int) (hne : src ≠ dest)
    (hno : ∀ c, validV g c → ¬ admits g max src c) (fuel : Nat) (hfuel : 2 ≤ fuel) :
    findPath fuel g src dest max = some Outcome.released := by
  simp only [findPath, if_neg hne, bfsLoop_no_edge g src dest max hne hno fuel hfuel]

theorem nonneg_not_admits (g : GraphRep) (max : Int) (a b : Vertex) (hg : 0 ≤ g.edges a b)
    (hmax : max ≤ 0) : ¬ admits g max a b := by
  unfold admits
  rw [not_not]
  by_cases h0 : g.edges a b = 0
  · exact Or.inl h0
  · refine Or.inr ?_
    show max < g.edges a b
    omega

/-- C15, as stated, fails on the code: `insertEdge` stores a negative weight
as it stores any other.  After `newGraph (2)` and `insertEdge (g, 0, 1, -3)` the
entry `edges[0][1]` is `-3`, and `findPath (g, 0, 1, 0, path)` returns 2 with
`path = [0, 1]` although `max = 0`. -/
theorem negative_weight_stored :
    (build Heap.plenty 2 [Op.insert 0 1 (-3)]).map (fun g => g.edges 0 1) = some (-3) ∧
      (((build Heap.plenty 2 [Op.insert 0 1 (-3)]).bind (fun g => findPath 4 g 0 1 0)).bind
        Outcome.result).map (fun r => (r.hops, r.path (fun _ => 0))) = some (2, [0, 1]) := by
  decide

/-- C15 (amended): in every graph obtained from `newGraph (n)` by a sequence of
`removeEdge` calls and of `insertEdge` calls whose weight is not negative, the
matrix holds no negative weight, and consequently for valid vertices
`src != dest` and every `max <= 0` the search of `findPath` follows no edge:
the edge test of line 175 rejects every pair of vertices, and the loop, started
as `findPath` starts it, ends (fuel 2 is enough) with the queue empty after
`src` alone has left it, without reaching `dest` and without a `visited` entry
set. -/
theorem build_nonneg_ceiling (heap : Heap) (n : Int) (ops : List Op) (g : GraphRep)
    (src dest : Vertex) (max : Int) (fuel : Nat) (h : build heap n ops = some g)
    (hnn : ∀ op ∈ ops, Op.nonneg op) (hs : validV g src) (hd : validV g dest)
    (hne : src ≠ dest) (hmax : max ≤ 0) (hfuel : 2 ≤ fuel) :
    (∀ a b : Vertex, 0 ≤ g.edges a b) ∧ (∀ a b : Vertex, ¬ admits g max a b) ∧
      bfsLoop g dest max fuel (QueueJoin newQueue src) (fun _ => -1) =
        some (BfsOutcome.exhausted (fun _ => -1)) := by
  have _ := hs
  have _ := hd
  have hg : ∀ a b : Vertex, 0 ≤ g.edges a b := by
    unfold build at h
    cases h0 : newGraph heap n with
    | none => simp [h0] at h
    | some g0 =>
      rw [h0, Option.some_bind] at h
      have he := (newGraph_some heap n g0 h0).2.2.2
      exact runOps_nonneg ops g0 g (fun a b => by rw [he]) hnn h
  have hadm : ∀ a b : Vertex, ¬ admits g max a b :=
    fun a b => nonneg_not_admits g max a b (hg a b) hmax
  exact ⟨hg, hadm, bfsLoop_no_edge g src dest max hne (fun c _ => hadm src c) fuel hfuel⟩

theorem build_nonneg_ceiling_witness :
    build Heap.plenty 2 [Op.insert 0 1 5] = some oneEdge ∧
      (∀ op ∈ [Op.insert 0 1 5], Op.nonneg op) ∧
      validV oneEdge 0 ∧ validV oneEdge 1 ∧ (0 : Vertex) ≠ 1 ∧ (0 : Int) ≤ 0 ∧ 2 ≤ 2 ∧
      (∀ a b : Vertex, 0 ≤ oneEdge.edges a b) ∧ (∀ a b : Vertex, ¬ admits oneEdge 0 a b) ∧
      bfsLoop oneEdge 1 0 2 (QueueJoin newQueue 0) (fun _ => -1) =
        some (BfsOutcome.exhausted (fun _ => -1)) :=
  ⟨rfl, by decide, by decide, by decide, by decide, by decide, by decide,
    build_nonneg_ceiling Heap.plenty 2 [Op.insert 0 1 5] oneEdge 0 1 0 2 rfl (by decide)
      (by decide) (by decide) (by decide) (by decide) (by decide)⟩

/-! ## The returned path: length, indices, distinct vertices -/

theorem chainFrom_length (visited : Vertex → Int) :
    ∀ (k : Nat) (v : Vertex), (chainFrom visited k v).length = k := by
  intro k
  induction k with
  | zero => intro v; rfl
  | succ k ih => intro v; simp [chainFrom, ih]

/-- Along a chain of `k` steps the loop of `realPath` collects exactly the
vertices of the chain. -/
theorem backtrack_chainFrom (src : Vertex) (visited : Vertex → Int) (v : Vertex) (k : Nat)
    (h : ChainTo src visited v k) :
    ∀ (fuel : Nat) (route : Queue) (hops : Int), k < fuel →
      backtrack src visited fuel v route hops =
        some (route ++ chainFrom visited k v, hops + (k : Int)) := by
  induction h with
  | base =>
    intro fuel route hops hf
    cases fuel with
    | zero => omega
    | succ fuel => simp [backtrack, chainFrom]
  | @step v k hv _ _ ih =>
    intro fuel route hops hf
    cases fuel with
    | zero => omega
    | succ fuel =>
      have e1 : QueueJoin route v ++ chainFrom visited k (visited v) =
          route ++ chainFrom visited (k + 1) v := by simp [QueueJoin, chainFrom]
      have e2 : hops + 1 + (k : Int) = hops + ((k + 1 : Nat) : Int) := by push_cast; ring
      have e3 : backtrack src visited (fuel + 1) v route hops =
          backtrack src visited fuel (visited v) (QueueJoin route v) (hops + 1) := by
        simp only [backtrack, if_pos hv]
      rw [e3, ih fuel (QueueJoin route v) (hops + 1) (by omega), e1, e2]

/-- The number of steps from a vertex to `src` is determined by the vertex. -/
theorem ChainTo_unique (src : Vertex) (visited : Vertex → Int) (v : Vertex) (k : Nat)
    (h : ChainTo src visited v k) : ∀ j, ChainTo src visited v j → j = k := by
  induction h with
  | base =>
    intro j hj
    cases hj with
    | base => rfl
    | step hv _ _ => exact absurd rfl hv
  | @step v k hv _ _ ih =>
    intro j hj
    cases hj with
    | base => exact absurd rfl hv
    | step _ _ hrest => rw [ih _ hrest]

theorem chainFrom_mem (src : Vertex) (visited : Vertex → Int) (v : Vertex) (k : Nat)
    (h : ChainTo src visited v k) :
    ∀ u ∈ chainFrom visited k v, u ≠ src ∧ ∃ j, j ≤ k ∧ ChainTo src visited u j := by
  induction h with
  | base => intro u hu; cases hu
  | @step v k hv hm hrest ih =>
    intro u hu
    simp only [chainFrom, List.mem_cons] at hu
    rcases hu with e | hu
    · subst e
      exact ⟨hv, k + 1, le_refl _, ChainTo.step hv hm hrest⟩
    · obtain ⟨h1, j, hj, hc⟩ := ih u hu
      exact ⟨h1, j, by omega, hc⟩

/-- The route of `realPath` visits no vertex twice. -/
theorem chainFrom_nodup (src : Vertex) (visited : Vertex → Int) (v : Vertex) (k : Nat)
    (h : ChainTo src visited v k) : (chainFrom visited k v ++ [src]).Nodup := by
  have hno : src ∉ chainFrom visited k v := fun hmem => (chainFrom_mem src visited v k h src hmem).1 rfl
  have hnd : (chainFrom visited k v).Nodup := by
    induction h with
    | base => exact List.nodup_nil
    | @step v k hv hm hrest ih =>
      simp only [chainFrom, List.nodup_cons]
      refine ⟨?_, ih (fun hmem => (chainFrom_mem src visited _ k hrest src hmem).1 rfl)⟩
      intro hmem
      obtain ⟨_, j, hj, hc⟩ := chainFrom_mem src visited _ k hrest v hmem
      have := ChainTo_unique src visited v (k + 1) (ChainTo.step hv hm hrest) j hc
      omega
  rw [List.nodup_append]
  refine ⟨hnd, List.nodup_singleton src, ?_⟩
  intro a ha hb
  rw [List.mem_singleton] at hb
  exact hno (hb ▸ ha)

theorem descStores_index_bound (l : List Vertex) :
    ∀ w ∈ descStores l, 0 ≤ w.1 ∧ w.1 < (l.length : Int) := by
  induction l with
  | nil => intro w hw; cases hw
  | cons v l ih =>
    intro w hw
    simp only [descStores, List.mem_cons] at hw
    rcases hw with e | hw
    · subst e
      simp only [List.length_cons, Nat.cast_add, Nat.cast_one]
      omega
    · have := ih w hw
      simp only [List.length_cons, Nat.cast_add, Nat.cast_one]
      omega

/-- The search for another vertex, with the route spelled out: either `dest`
left the queue and the stores are those of the chain from `dest` followed by
`src`, or the queue ran empty. -/
theorem findPath_outcome_route (g : GraphRep) (src dest : Vertex) (max : Int)
    (hs : validV g src) (hsd : src ≠ dest) (fuel : Nat) (hfuel : g.nV + 2 ≤ fuel) :
    (∃ (P Q : List Vertex) (visited : Vertex → Int) (k : Nat),
        BfsInv g src dest max P (dest :: Q) visited ∧ ChainTo src visited dest k ∧ k < g.nV ∧
        findPath fuel g src dest max =
          some (Outcome.returned { hops := (k : Int) + 1,
                                   writes := descStores (chainFrom visited k dest ++ [src]),
                                   graph := some g })) ∨
      (∃ (P : List Vertex) (visited : Vertex → Int),
        BfsInv g src dest max P [] visited ∧
        findPath fuel g src dest max = some Outcome.released) := by
  have hstart := BfsInv_start g src dest max hs
  have hm : unmarked g (fun _ => -1) + (QueueJoin newQueue src).length < fuel := by
    have hq : (QueueJoin newQueue src).length = 1 := rfl
    rw [unmarked_start, hq]; omega
  rcases bfsLoop_ends g src dest max fuel [] _ _ hstart hm with
    ⟨P1, Q1, visited1, hb, hinv⟩ | ⟨P1, visited1, hb, hinv⟩
  · have hdw := (hinv.waiting dest (List.mem_cons_self _ _)).2
    have hdm : visited1 dest ≠ -1 := by
      rcases hdw with e | h
      · exact absurd e.symm hsd
      · exact h
    obtain ⟨k, hk, hkm⟩ := hinv.chain dest (Ne.symm hsd) hdm
    have hlt := marked_lt g src visited1 hs
    have hbt := backtrack_chainFrom src visited1 dest k hk fuel newQueue 0 (by omega)
    have hfill : fillPath ((0 : Int) + (k : Int) + 1).toNat
        (QueueJoin (newQueue ++ chainFrom visited1 k dest) src) =
        some (descStores (QueueJoin (newQueue ++ chainFrom visited1 k dest) src)) := by
      have hl : ((0 : Int) + (k : Int) + 1).toNat =
          (QueueJoin (newQueue ++ chainFrom visited1 k dest) src).length := by
        simp [QueueJoin, newQueue, chainFrom_length]
      rw [hl, fillPath_length]
    refine Or.inl ⟨P1, Q1, visited1, k, hinv, hk, by omega, ?_⟩
    simp only [findPath, if_neg hsd, hb, realPath, hbt, hfill, Option.map_some']
    simp only [QueueJoin, newQueue, List.nil_append, zero_add]
  · refine Or.inr ⟨P1, visited1, hinv, ?_⟩
    simp only [findPath, if_neg hsd, hb]

/-- What any value returned by `findPath` on a valid source looks like: the hop
count is between 0 and `nV`, every store goes to an index in `[0, nV)`, and the
vertices read back from `path[0 .. hops-1]` are pairwise distinct. -/
theorem findPath_shape (g : GraphRep) (src dest : Vertex) (max : Int) (hs : validV g src)
    (fuel : Nat) (r : FindResult)
    (h : findPath fuel g src dest max = some (Outcome.returned r)) :
    0 ≤ r.hops ∧ r.hops ≤ (g.nV : Int) ∧
      (∀ w ∈ r.writes, 0 ≤ w.1 ∧ w.1 < (g.nV : Int)) ∧
      ∀ p : Int → Vertex, (r.path p).Nodup := by
  have h0 : (0 : Int) ≤ src := hs.1
  have h1 : @LT.lt Int _ src (g.nV : Int) := hs.2
  by_cases hsd : src = dest
  · have hr : r = { hops := 1, writes := [(0, src)], graph := some g } := by
      simp only [findPath, if_pos hsd, Option.some.injEq, Outcome.returned.injEq] at h
      exact h.symm
    subst hr
    refine ⟨by show (0 : Int) ≤ 1; omega, by show (1 : Int) ≤ (g.nV : Int); omega, ?_, ?_⟩
    · intro w hw
      simp only [List.mem_singleton] at hw
      subst hw
      exact ⟨le_refl _, by show (0 : Int) < (g.nV : Int); omega⟩
    · intro p
      simp [FindResult.path, List.range_succ]
  · have hbig := findPath_fuel_le g src dest max fuel _ h (Nat.max fuel (g.nV + 2))
      (Nat.le_max_left _ _)
    rcases findPath_outcome_route g src dest max hs hsd (Nat.max fuel (g.nV + 2))
        (Nat.le_max_right _ _) with ⟨_, _, visited, k, _, hk, hkn, hf⟩ | ⟨_, _, _, hf⟩
    · rw [hf] at hbig
      simp only [Option.some.injEq, Outcome.returned.injEq] at hbig
      subst hbig
      have hlen : (chainFrom visited k dest ++ [src]).length = k + 1 := by
        simp [chainFrom_length]
      refine ⟨by show (0 : Int) ≤ (k : Int) + 1; omega,
        by show (k : Int) + 1 ≤ (g.nV : Int); omega, ?_, ?_⟩
      · intro w hw
        have hb := descStores_index_bound _ w hw
        rw [hlen] at hb
        refine ⟨hb.1, ?_⟩
        have := hb.2
        push_cast at this
        omega
      · intro p
        have hread := store_descStores_read (chainFrom visited k dest ++ [src]) p
        rw [hlen] at hread
        have htn : ((k : Int) + 1).toNat = k + 1 := by omega
        simp only [FindResult.path, htn]
        rw [hread]
        exact List.nodup_reverse.mpr (chainFrom_nodup src visited dest k hk)
    · rw [hf] at hbig
      cases hbig

/-- C16: a path buffer of capacity `nV` suffices.  For valid vertices the
call of `findPath` ends (fuel `nV + 2` is enough), and whatever it returns, the
hop count `h` satisfies `0 <= h <= nV`, every index it stores into lies in
`[0, nV)`, and the `h` vertices of the returned path are pairwise distinct. -/
theorem findPath_buffer (g : GraphRep) (src dest : Vertex) (max : Int)
    (hs : validV g src) (hd : validV g dest) :
    (∀ fuel : Nat, g.nV + 2 ≤ fuel → ∃ o, findPath fuel g src dest max = some o) ∧
      ∀ (fuel : Nat) (r : FindResult),
        findPath fuel g src dest max = some (Outcome.returned r) →
        0 ≤ r.hops ∧ r.hops ≤ (g.nV : Int) ∧
          (∀ w ∈ r.writes, 0 ≤ w.1 ∧ w.1 < (g.nV : Int)) ∧
          ∀ p : Int → Vertex, (r.path p).Nodup := by
  have _ := hd
  refine ⟨fun fuel hfuel => ?_, fun fuel r h => findPath_shape g src dest max hs fuel r h⟩
  obtain ⟨o, ho, _⟩ := findPath_ends g src dest max hs fuel hfuel
  exact ⟨o, ho⟩

theorem findPath_buffer_witness :
    validV scenarioGraph 0 ∧ validV scenarioGraph 3 ∧
      findPath 6 scenarioGraph 0 3 30 =
        some (Outcome.returned
          { hops := 3, writes := [(2, 3), (1, 2), (0, 0)], graph := some scenarioGraph }) ∧
      (0 : Int) ≤ 3 ∧ (3 : Int) ≤ (scenarioGraph.nV : Int) ∧
      (∀ w ∈ [((2 : Int), (3 : Vertex)), (1, 2), (0, 0)], 0 ≤ w.1 ∧ w.1 < (scenarioGraph.nV : Int)) ∧
      ∀ p : Int → Vertex, (FindResult.path
        { hops := 3, writes := [(2, 3), (1, 2), (0, 0)], graph := some scenarioGraph } p).Nodup :=
  ⟨by decide, by decide, rfl,
    (findPath_buffer scenarioGraph 0 3 30 (by decide) (by decide)).2 6
      { hops := 3, writes := [(2, 3), (1, 2), (0, 0)], graph := some scenarioGraph } rfl⟩

/-! ## The order of the children and the queue log -/

theorem diamond_built :
    build Heap.plenty 4 [Op.insert 0 1 5, Op.insert 1 3 1, Op.insert 0 2 1, Op.insert 2 3 1] =
      some diamond :=
  rfl

/-- C17 fails on the code: on the graph with the edges `(0,1,5)`, `(1,3,1)`,
`(0,2,1)`, `(2,3,1)` and `max = 5`, `findPath (g, 0, 3, 5, path)` returns 3 with
`path = [0, 1, 3]`.  The only walk of three vertices from 0 to 3 along edges of
nonzero weight strictly less than 5 is `[0, 2, 3]`, so the smallest such
sequence is `[0, 2, 3]` and not the one returned; `[0, 1, 3]` uses the edge
`(0,1)` whose weight equals `max`. -/
theorem findPath_tie_break_at_ceiling :
    ((findPath 6 diamond 0 3 5).bind Outcome.result).map
        (fun r => (r.hops, r.path (fun _ => 0))) =
        some (3, [0, 1, 3]) ∧
      ¬ IsWalk diamond (delAdmits diamond 5) 0 3 [0, 1, 3] ∧
      IsWalk diamond (delAdmits diamond 5) 0 3 [0, 2, 3] ∧
      ∀ p : List Vertex, IsWalk diamond (delAdmits diamond 5) 0 3 p → p.length = 3 →
        p = [0, 2, 3] := by
  refine ⟨by decide, by decide, by decide, ?_⟩
  intro p hw hlen
  obtain ⟨hhead, hlast, hval, hl⟩ := hw
  match p, hlen, hhead, hlast, hval, hl with
  | [a, b, c], _, hhead, hlast, hval, hl =>
    simp only [List.head?_cons, Option.some.injEq] at hhead
    have hc : c = 3 := by simpa [List.getLast?] using hlast
    subst hhead; subst hc
    have hb : b ∈ vertices diamond := (mem_vertices diamond b).mpr (hval b (by simp))
    have hall : ∀ b ∈ vertices diamond,
        delAdmits diamond 5 0 b ∧ delAdmits diamond 5 b 3 → b = 2 := by decide
    rw [hall b hb ⟨hl.1, hl.2.1⟩]

/-- The queue after the loop over the children is the queue before it followed
by the log of the joins. -/
theorem scanChildren_queue (g : GraphRep) (max : Int) (curr : Vertex) :
    ∀ (cs : List Vertex) (Q : Queue) (visited : Vertex → Int),
      (scanChildren g max curr cs Q visited).1 = Q ++ scanJoins g max curr cs visited := by
  intro cs
  induction cs with
  | nil => intro Q visited; simp [scanChildren, scanJoins]
  | cons c cs ih =>
    intro Q visited
    by_cases hskip : g.edges curr c = 0 ∨ g.edges curr c > max ∨ visited c ≠ -1
    · simp only [scanChildren, scanJoins, if_pos hskip]
      exact ih Q visited
    · simp only [scanChildren, scanJoins, if_neg hskip]
      rw [ih]
      simp [QueueJoin]

/-- C18 fails on the code: on the graph of the scenario, during
`findPath (g, 0, 3, 10, path)` the calls of `QueueJoin` are, in order, for the
vertices 0, 1, 0, 2, 3: the source 0 joins the queue twice, the second time as
a child of vertex 1, because `del2.c` leaves `visited[src]` at `-1` when it puts
`src` into the queue (`del.c` line 122 sets `visited[src] = src`).  The call
returns 4 with `path = [0, 1, 2, 3]`. -/
theorem findPath_source_joins_twice :
    findPathJoins 6 scenarioGraph 0 3 10 = [0, 1, 0, 2, 3] ∧
      (findPathJoins 6 scenarioGraph 0 3 10).count 0 = 2 ∧
      ((findPath 6 scenarioGraph 0 3 10).bind Outcome.result).map
        (fun r => (r.hops, r.path (fun _ => 0))) =
        some (4, [0, 1, 2, 3]) := by
  decide

/-! ## Termination -/

/-- C19: for valid vertices both loops end.  The loop of `findPath` started
from the queue `[src]` ends within `nV + 2` tests of the queue, whatever cycles
the graph has; when it ends with `dest` reached, the backward walk of
`realPath` from `dest` reaches `src` within `nV` tests of `current != src`; and
the call of `findPath` ends (it returns, or leaves by the no-path exit) with any
fuel of at least `nV + 2`. -/
theorem findPath_terminates (g : GraphRep) (src dest : Vertex) (max : Int)
    (hs : validV g src) (hd : validV g dest) :
    (∃ out, bfsLoop g dest max (g.nV + 2) (QueueJoin newQueue src) (fun _ => -1) = some out ∧
        ∀ visited, out = BfsOutcome.found visited →
          ∃ res, backtrack src visited g.nV dest newQueue 0 = some res) ∧
      ∀ fuel : Nat, g.nV + 2 ≤ fuel → ∃ o, findPath fuel g src dest max = some o := by
  have _ := hd
  have h0 : (0 : Int) ≤ src := hs.1
  have h1 : @LT.lt Int _ src (g.nV : Int) := hs.2
  refine ⟨?_, fun fuel hfuel => ?_⟩
  · have hstart := BfsInv_start g src dest max hs
    have hm : unmarked g (fun _ => -1) + (QueueJoin newQueue src).length < g.nV + 2 := by
      have hq : (QueueJoin newQueue src).length = 1 := rfl
      rw [unmarked_start, hq]; omega
    rcases bfsLoop_ends g src dest max (g.nV + 2) [] _ _ hstart hm with
      ⟨P1, Q1, visited1, hb, hinv⟩ | ⟨P1, visited1, hb, _⟩
    · refine ⟨_, hb, ?_⟩
      intro visited hv
      cases hv
      have hlt := marked_lt g src visited1 hs
      by_cases hsd : dest = src
      · subst hsd
        exact ⟨_, backtrack_chainFrom dest visited1 dest 0 ChainTo.base g.nV newQueue 0 (by omega)⟩
      · have hdm : visited1 dest ≠ -1 := by
          rcases (hinv.waiting dest (List.mem_cons_self _ _)).2 with e | h
          · exact absurd e hsd
          · exact h
        obtain ⟨k, hk, hkm⟩ := hinv.chain dest hsd hdm
        exact ⟨_, backtrack_chainFrom src visited1 dest k hk g.nV newQueue 0 (by omega)⟩
    · refine ⟨_, hb, ?_⟩
      intro visited hv
      cases hv
  · obtain ⟨o, ho, _⟩ := findPath_ends g src dest max hs fuel hfuel
    exact ⟨o, ho⟩

theorem findPath_terminates_witness :
    validV scenarioGraph 0 ∧ validV scenarioGraph 3 ∧
      (∃ out, bfsLoop scenarioGraph 3 10 (scenarioGraph.nV + 2) (QueueJoin newQueue 0)
          (fun _ => -1) = some out ∧
        ∀ visited, out = BfsOutcome.found visited →
          ∃ res, backtrack 0 visited scenarioGraph.nV 3 newQueue 0 = some res) ∧
      ∀ fuel : Nat, scenarioGraph.nV + 2 ≤ fuel →
        ∃ o, findPath fuel scenarioGraph 0 3 10 = some o :=
  ⟨by decide, by decide, findPath_terminates scenarioGraph 0 3 10 (by decide) (by decide)⟩

end Graph
